import Mathlib

/-!
Shallow embedding of the github-stats repository (src/collect.py and
src/visualize.py) and proofs about the claims of its specification.

Conventions of the embedding:
* Python ints are ℤ (or ℕ where the source guarantees non-negativity);
  Python floats produced by exact integer arithmetic are modelled as ℚ,
  and the float square root inside statistics.stdev is modelled exactly
  (round(sqrt q) computed on rationals).
* A Python dict is an association list in insertion order: new keys are
  appended at the tail, which is exactly CPython's iteration order.
* datetime.date values are modelled by their proleptic Gregorian ordinal
  (an integer, datetime.date.toordinal), which is order- and
  successor-isomorphic to the calendar dates; datetime.datetime is a
  six-field record with second precision.
* Fallible code (CSV loading) returns Option.
-/

namespace GitStats

/-- Timestamp with second precision, modelling Python datetime.datetime as
used by collect.py and visualize.py. -/
structure DateTime where
  year : ℕ
  month : ℕ
  day : ℕ
  hour : ℕ
  minute : ℕ
  second : ℕ
deriving DecidableEq

/-- One commit record, from collect.py (class Commit).  added and removed
are -1 while line counts are not yet computed, hence ℤ. -/
structure Commit where
  repository : String
  sha : String
  timestamp : DateTime
  author : String
  added : ℤ
  removed : ℤ
deriving DecidableEq

/-- A week bucket, from visualize.py (class Group): the week key and the
list of commits of that week. -/
structure Group where
  name : String
  commits : List Commit
deriving DecidableEq

/-- Sum of lines added over the group's commits (Group.added). -/
def Group.added (g : Group) : ℤ :=
  (g.commits.map Commit.added).sum

/-- Sum of lines removed over the group's commits (Group.removed). -/
def Group.removed (g : Group) : ℤ :=
  (g.commits.map Commit.removed).sum

/-- The group's change magnitude (Group.change). -/
def Group.change (g : Group) : ℤ :=
  g.added + g.removed

/-- Group.get_score from visualize.py, translated branch for branch:
if change < minv then 0; if change > maxv then 1; if maxv - minv == 0
then 0; otherwise linear interpolation (exact rational division). -/
def Group.get_score (g : Group) (minv maxv : ℤ) : ℚ :=
  if g.change < minv then 0
  else if g.change > maxv then 1
  else if maxv - minv = 0 then 0
  else ((g.change : ℚ) - (minv : ℚ)) / ((maxv : ℚ) - (minv : ℚ))

/-- C2: for lower ≤ upper the score is within [0,1] and v ≤ lower gives 0;
but v ≥ upper gives 1 only on a non-degenerate range (lower < upper): this
is the amended form, see the counterexample for the degenerate point. -/
theorem get_score_bounds (g : Group) (lo hi : ℤ) (h : lo ≤ hi) :
    (0 ≤ g.get_score lo hi ∧ g.get_score lo hi ≤ 1) ∧
    (g.change ≤ lo → g.get_score lo hi = 0) ∧
    (hi ≤ g.change → lo < hi → g.get_score lo hi = 1) := by
  unfold Group.get_score
  split_ifs with h1 h2 h3
  · refine ⟨⟨le_refl 0, zero_le_one⟩, fun _ => rfl, fun h4 h5 => absurd h1 ?_⟩
    omega
  · refine ⟨⟨zero_le_one, le_refl 1⟩, fun h4 => absurd h2 ?_, fun _ _ => rfl⟩
    omega
  · refine ⟨⟨le_refl 0, zero_le_one⟩, fun _ => rfl, fun h4 h5 => absurd h3 ?_⟩
    omega
  · have hlo : lo ≤ g.change := not_lt.mp h1
    have hhi : g.change ≤ hi := not_lt.mp h2
    have hlt : lo < hi := by omega
    have hden : (0 : ℚ) < (hi : ℚ) - (lo : ℚ) := by
      rw [sub_pos]
      exact_mod_cast hlt
    refine ⟨⟨div_nonneg ?_ hden.le, (div_le_one hden).mpr ?_⟩, ?_, ?_⟩
    · rw [sub_nonneg]
      exact_mod_cast hlo
    · have : (g.change : ℚ) ≤ (hi : ℚ) := by exact_mod_cast hhi
      linarith
    · intro h4
      have he : g.change = lo := le_antisymm h4 hlo
      rw [he, sub_self, zero_div]
    · intro h4 _
      have he : g.change = hi := le_antisymm hhi h4
      rw [he]
      exact div_self hden.ne'

/-- C2 witness: the bounds theorem applied at a concrete group and a
concrete non-degenerate range. -/
theorem get_score_bounds_witness :
    ((0 : ℤ) ≤ 1) ∧
    ((0 ≤ (Group.mk "2024-01" []).get_score 0 1 ∧
        (Group.mk "2024-01" []).get_score 0 1 ≤ 1) ∧
      ((Group.mk "2024-01" []).change ≤ 0 →
        (Group.mk "2024-01" []).get_score 0 1 = 0) ∧
      (1 ≤ (Group.mk "2024-01" []).change → (0 : ℤ) < 1 →
        (Group.mk "2024-01" []).get_score 0 1 = 1)) :=
  ⟨by decide, get_score_bounds (Group.mk "2024-01" []) 0 1 (by decide)⟩

/-- C2 counterexample: with lower = upper = 5 and change magnitude 5 the
bounds are ordered and v ≥ upper holds, yet the score is 0, not 1 (the
degenerate-range branch of get_score wins). -/
theorem get_score_upper_cex :
    ((5 : ℤ) ≤ 5 ∧
      (5 : ℤ) ≤ (Group.mk "w" [⟨"r", "s", ⟨2024, 1, 1, 0, 0, 0⟩, "a", 2, 3⟩]).change) ∧
    (Group.mk "w" [⟨"r", "s", ⟨2024, 1, 1, 0, 0, 0⟩, "a", 2, 3⟩]).get_score 5 5 ≠ 1 := by
  decide

/-- C9 (amended): on a degenerate range lower = upper = m, get_score
returns 0 for v ≤ m but 1 for v > m (the v > upper branch is tested
before the degenerate-range branch); no division happens either way. -/
theorem get_score_degenerate_range (g : Group) (m : ℤ) :
    (g.change ≤ m → g.get_score m m = 0) ∧
    (m < g.change → g.get_score m m = 1) := by
  unfold Group.get_score
  constructor
  · intro hle
    by_cases h1 : g.change < m
    · rw [if_pos h1]
    · rw [if_neg h1, if_neg (by omega : ¬g.change > m), if_pos (sub_self m)]
  · intro hlt
    rw [if_neg (by omega : ¬g.change < m), if_pos hlt]

/-- C9 witness: the degenerate-range theorem applied at a concrete group
with change magnitude 5 and m = 5, discharging the hypothesis v ≤ m. -/
theorem get_score_degenerate_range_witness :
    ((Group.mk "w" [⟨"r", "s", ⟨2024, 1, 1, 0, 0, 0⟩, "a", 2, 3⟩]).change ≤ 5) ∧
    (Group.mk "w" [⟨"r", "s", ⟨2024, 1, 1, 0, 0, 0⟩, "a", 2, 3⟩]).get_score 5 5 = 0 :=
  ⟨by decide,
    (get_score_degenerate_range (Group.mk "w" [⟨"r", "s", ⟨2024, 1, 1, 0, 0, 0⟩, "a", 2, 3⟩]) 5).1
      (by decide)⟩

/-- C9 counterexample: with lower = upper = 5 and change magnitude 10 the
score is 1, not the 0 the claim promises for every v. -/
theorem get_score_degenerate_cex :
    (Group.mk "w" [⟨"r", "s", ⟨2024, 1, 1, 0, 0, 0⟩, "a", 4, 6⟩]).get_score 5 5 = 1 ∧
    ((1 : ℚ) ≠ 0) := by
  decide

/-! ## Helpers from functional.py (not among the staged sources)

functional.py is imported by visualize.py but is not part of the staged
source files, so the three helpers are modelled from the spec's wording. -/

/-- Modelled from the spec: functional.list_map, the mapping helper used by
visualize.py ("the list of each group's change magnitude", "trimmed,
lower-cased" author names); an order-preserving map. -/
def list_map {α β : Type} (l : List α) (f : α → β) : List β :=
  l.map f

/-- Modelled from the spec: functional.list_filter, the filtering helper
("the subsequence of records whose author ... is in the set"); an
order-preserving filter. -/
def list_filter {α : Type} (l : List α) (p : α → Bool) : List α :=
  l.filter p

/-- Modelled from the spec: functional.list_reduce, the fold used to build
the author counts and the week buckets; a left fold with initial value. -/
def list_reduce {α β : Type} (l : List α) (f : β → α → β) (init : β) : β :=
  l.foldl f init

/-! ## The range estimator (visualize.get_stddev_range) -/

/-- Largest s with s * s ≤ n, by bounded search (structural recursion so
that concrete instances reduce in the kernel). -/
def floorSqrtGo (n : ℕ) : ℕ → ℕ → ℕ
  | 0, k => k
  | f + 1, k => if (k + 1) * (k + 1) ≤ n then floorSqrtGo n f (k + 1) else k

/-- Floor of the square root of a natural number. -/
def floorSqrt (n : ℕ) : ℕ :=
  floorSqrtGo n n 0

/-- Python's round() on an exact rational: round half to even (the
fractional part is compared with one half by the scaled test
2 * (q - floor q) against 1). -/
def pyRound (q : ℚ) : ℤ :=
  if 2 * (q - ⌊q⌋) < 1 then ⌊q⌋
  else if 1 < 2 * (q - ⌊q⌋) then ⌊q⌋ + 1
  else if ⌊q⌋ % 2 = 0 then ⌊q⌋ else ⌊q⌋ + 1

/-- round(sqrt q) for a non-negative rational q = a / b, computed exactly:
floor(sqrt(a/b) + 1/2) = (floor(sqrt(4ab)) + b) / (2b), corrected to round
half to even when sqrt(a/b) is exactly k + 1/2 (then 4a = (2k+1)^2 * b).
This models round(statistics.stdev(...)), whose float result equals the
real square root closely enough that rounding agrees away from exact
half-integers. -/
def roundSqrt (q : ℚ) : ℤ :=
  let a := q.num.toNat
  let b := q.den
  let r := (floorSqrt (4 * a * b) + b) / (2 * b)
  if 0 < r ∧ 4 * a = (2 * r - 1) ^ 2 * b ∧ (r - 1) % 2 = 0 then (r : ℤ) - 1 else (r : ℤ)

/-- Exact arithmetic mean, modelling statistics.mean on a list of ints. -/
def statistics_mean (l : List ℤ) : ℚ :=
  (l.sum : ℚ) / (l.length : ℚ)

/-- Exact sample variance (denominator length - 1), the square of
statistics.stdev. -/
def sampleVariance (l : List ℤ) : ℚ :=
  (l.map (fun x : ℤ => ((x : ℚ) - statistics_mean l) ^ 2)).sum / ((l.length : ℚ) - 1)

/-- visualize.get_stddev_range: map the groups to their change magnitudes
(no zero is appended), return none for zero groups, otherwise the rounded
mean, max(round(mean - stddev), 0) and round(mean + stddev), where stddev
is round(statistics.stdev(changes)) for two or more values and 0 for a
single value. -/
def get_stddev_range (groups : List (String × Group)) : Option (ℤ × ℤ × ℤ) :=
  let changes := list_map (groups.map Prod.snd) Group.change
  if changes = [] then none
  else
    let mean := pyRound (statistics_mean changes)
    let stddev : ℤ := if 1 < changes.length then roundSqrt (sampleVariance changes) else 0
    some (mean, max (pyRound ((mean : ℚ) - (stddev : ℚ))) 0, pyRound ((mean : ℚ) + (stddev : ℚ)))

theorem pyRound_int (n : ℤ) : pyRound ((n : ℚ)) = n := by
  unfold pyRound
  rw [Int.floor_intCast]
  norm_num

theorem get_stddev_range_eval (groups : List (String × Group)) (cs : List ℤ) (m s : ℤ)
    (hcs : (groups.map Prod.snd).map Group.change = cs) (hne : cs ≠ [])
    (hm : pyRound (statistics_mean cs) = m)
    (hs : (if 1 < cs.length then roundSqrt (sampleVariance cs) else 0) = s) :
    get_stddev_range groups =
      some (m, max (pyRound ((m : ℚ) - (s : ℚ))) 0, pyRound ((m : ℚ) + (s : ℚ))) := by
  simp only [get_stddev_range, list_map]
  rw [hcs, if_neg hne, hm, hs]

/-- The two demo commits of the spec's example scenario: change magnitudes
30 and 100. -/
def c30 : Commit :=
  ⟨"repo", "sha30", ⟨2024, 1, 3, 12, 0, 0⟩, "dan", 10, 20⟩

def c100 : Commit :=
  ⟨"repo", "sha100", ⟨2024, 1, 17, 12, 0, 0⟩, "dan", 60, 40⟩

/-- The spec's example scenario: weeks 2024-01 and 2024-03 with change
magnitudes 30 and 100. -/
def demoGroups : List (String × Group) :=
  [("2024-01", ⟨"2024-01", [c30]⟩), ("2024-03", ⟨"2024-03", [c100]⟩)]

theorem statistics_mean_pair : statistics_mean [30, 100] = ((65 : ℤ) : ℚ) := by
  norm_num [statistics_mean]

theorem sampleVariance_pair : sampleVariance [30, 100] = (2450 : ℚ) := by
  norm_num [sampleVariance, statistics_mean]

theorem stddev_demo_eval : get_stddev_range demoGroups = some (65, 16, 114) := by
  have h1 : pyRound (statistics_mean [30, 100]) = 65 := by
    rw [statistics_mean_pair, pyRound_int]
  have h2 : (if 1 < ([30, 100] : List ℤ).length then roundSqrt (sampleVariance [30, 100]) else 0) = 49 := by
    rw [if_pos (by norm_num), sampleVariance_pair]
    decide
  have h3 := get_stddev_range_eval demoGroups [30, 100] 65 49 (by decide) (by decide) h1 h2
  rw [h3]
  have hlow : pyRound (((65 : ℤ) : ℚ) - ((49 : ℤ) : ℚ)) = 16 := by
    rw [show ((65 : ℤ) : ℚ) - ((49 : ℤ) : ℚ) = ((16 : ℤ) : ℚ) by push_cast; norm_num]
    exact pyRound_int 16
  have hup : pyRound (((65 : ℤ) : ℚ) + ((49 : ℤ) : ℚ)) = 114 := by
    rw [show ((65 : ℤ) : ℚ) + ((49 : ℤ) : ℚ) = ((114 : ℤ) : ℚ) by push_cast; norm_num]
    exact pyRound_int 114
  rw [hlow, hup]
  decide

/-- C1 (amended): the range estimator uses the group magnitudes as they
are, with no zero appended: over magnitudes 30 and 100 it returns
mean=65, lower=16, upper=114 (round(mean)=65, round(stdev([30,100]))=49). -/
theorem get_stddev_range_demo :
    ((demoGroups.map Prod.snd).map Group.change = [30, 100]) ∧
    get_stddev_range demoGroups = some (65, 16, 114) :=
  ⟨by decide, stddev_demo_eval⟩

/-- C1 counterexample: on groups with magnitudes 30 and 100 the estimator
does not return (43, 0, 87), the value the claim derives from the list
with an extra 0 appended. -/
theorem get_stddev_range_zero_append_cex :
    ((demoGroups.map Prod.snd).map Group.change = [30, 100]) ∧
    get_stddev_range demoGroups ≠ some (43, 0, 87) := by
  refine ⟨by decide, ?_⟩
  rw [stddev_demo_eval]
  decide

theorem statistics_mean_const (l : List ℤ) (c : ℤ) (hne : l ≠ []) (h : ∀ x ∈ l, x = c) :
    statistics_mean l = (c : ℚ) := by
  have hlen : (l.length : ℚ) ≠ 0 := by
    have h0 : l.length ≠ 0 := fun h0 => hne (List.eq_nil_of_length_eq_zero h0)
    exact_mod_cast h0
  have hsum : l.sum = (l.length : ℤ) * c := by
    conv_lhs => rw [List.eq_replicate_of_mem h]
    rw [List.sum_replicate]
    push_cast [nsmul_eq_mul]
    ring
  rw [statistics_mean, hsum]
  push_cast
  field_simp

theorem sampleVariance_const (l : List ℤ) (c : ℤ) (hne : l ≠ []) (h : ∀ x ∈ l, x = c) :
    sampleVariance l = 0 := by
  have hsum : (l.map (fun x : ℤ => ((x : ℚ) - statistics_mean l) ^ 2)).sum = 0 := by
    apply List.sum_eq_zero
    intro b hb
    rcases List.mem_map.mp hb with ⟨y, hy, rfl⟩
    show ((y : ℚ) - statistics_mean l) ^ 2 = 0
    rw [h y hy, statistics_mean_const l c hne h, sub_self]
    ring
  rw [sampleVariance, hsum, zero_div]

theorem roundSqrt_zero : roundSqrt 0 = 0 := by decide

/-- C8: the range estimator returns none for zero groups; a single group
has standard deviation 0 (result (c, max c 0, c) for magnitude c); groups
with all-equal non-negative magnitudes give lower = upper = mean. -/
theorem get_stddev_range_degenerate :
    (get_stddev_range [] = none) ∧
    (∀ (k : String) (g : Group),
      get_stddev_range [(k, g)] = some (g.change, max g.change 0, g.change)) ∧
    (∀ (l : List (String × Group)) (c : ℤ), l ≠ [] →
      (∀ p ∈ l, (Prod.snd p).change = c) → 0 ≤ c →
      get_stddev_range l = some (c, c, c)) := by
  refine ⟨rfl, fun k g => ?_, fun l c hne hall hnn => ?_⟩
  · have hm : pyRound (statistics_mean [g.change]) = g.change := by
      rw [statistics_mean_const [g.change] g.change (by simp) (by simp), pyRound_int]
    have h3 := get_stddev_range_eval [(k, g)] [g.change] g.change 0 rfl (by simp)
      hm (by simp)
    rw [h3, Int.cast_zero, sub_zero, add_zero, pyRound_int]
  · have hall' : ∀ x ∈ (l.map Prod.snd).map Group.change, x = c := by
      intro x hx
      rcases List.mem_map.mp hx with ⟨g, hg, rfl⟩
      rcases List.mem_map.mp hg with ⟨p, hp, rfl⟩
      exact hall p hp
    have hne' : (l.map Prod.snd).map Group.change ≠ [] := by
      simpa using hne
    have hm : pyRound (statistics_mean ((l.map Prod.snd).map Group.change)) = c := by
      rw [statistics_mean_const _ c hne' hall', pyRound_int]
    have hs : (if 1 < ((l.map Prod.snd).map Group.change).length
        then roundSqrt (sampleVariance ((l.map Prod.snd).map Group.change)) else 0) = 0 := by
      split_ifs with hl
      · rw [sampleVariance_const _ c hne' hall', roundSqrt_zero]
      · rfl
    have h3 := get_stddev_range_eval l ((l.map Prod.snd).map Group.change) c 0 rfl hne' hm hs
    rw [h3, Int.cast_zero, sub_zero, add_zero, pyRound_int, max_eq_left hnn]

/-- C8 witness: applied to two groups with equal magnitude 7, the result
is (7, 7, 7); the hypotheses (non-empty, all equal, non-negative) are
discharged at this input. -/
theorem get_stddev_range_degenerate_witness :
    (([("2024-01", Group.mk "2024-01" [c30]), ("2024-02", Group.mk "2024-02" [c30])] :
        List (String × Group)) ≠ []) ∧
    (∀ p ∈ ([("2024-01", Group.mk "2024-01" [c30]), ("2024-02", Group.mk "2024-02" [c30])] :
        List (String × Group)), (Prod.snd p).change = 30) ∧
    (0 : ℤ) ≤ 30 ∧
    get_stddev_range [("2024-01", Group.mk "2024-01" [c30]), ("2024-02", Group.mk "2024-02" [c30])] =
      some (30, 30, 30) :=
  ⟨by decide, by decide, by decide,
    get_stddev_range_degenerate.2.2
      [("2024-01", Group.mk "2024-01" [c30]), ("2024-02", Group.mk "2024-02" [c30])] 30
      (by decide) (by decide) (by decide)⟩

/-! ## Author filtering (visualize.filter_by_authors) -/

/-- The characters Python str.strip removes (ASCII whitespace; the exotic
Unicode spaces do not occur in this data). -/
def isPySpace (c : Char) : Bool :=
  c = ' ' || c = '\t' || c = '\n' || c = '\r' || c = '\x0b' || c = '\x0c'

/-- Python str.strip(). -/
def pyStrip (s : String) : String :=
  String.mk (((s.data.dropWhile isPySpace).reverse.dropWhile isPySpace).reverse)

/-- Python str.lower() (ASCII model). -/
def pyLower (s : String) : String :=
  String.mk (s.data.map Char.toLower)

/-- visualize.filter_by_authors: keep the commits whose stripped,
lower-cased author is in the stripped, lower-cased author list (the
stdout diagnostics of the source are a side effect outside the model). -/
def filter_by_authors (commits : List Commit) (authors : List String) : List Commit :=
  list_filter commits
    (fun x => (list_map authors (fun a => pyLower (pyStrip a))).contains (pyLower (pyStrip x.author)))

/-- C10: with zero author filters (the visualizer's default) every commit
is removed: membership in the empty set always fails, so the filter
returns the empty list. -/
theorem filter_by_authors_empty_authors (commits : List Commit) :
    filter_by_authors commits [] = [] := by
  simp [filter_by_authors, list_filter, list_map]

/-! ## Decimal formatting (Python str) and the calendar -/

/-- Decimal digits of n, most significant first, by fuel-bounded structural
recursion (any fuel at least the digit count; the empty list for n = 0). -/
def natCharsGo : ℕ → ℕ → List Char
  | _, 0 => []
  | n, f + 1 => if n = 0 then [] else natCharsGo (n / 10) f ++ [Nat.digitChar (n % 10)]

/-- Python str(n) for a natural number, as a character list. -/
def natChars (n : ℕ) : List Char :=
  if n = 0 then ['0'] else natCharsGo n n

/-- Python str(n) for a natural number. -/
def natStr (n : ℕ) : String :=
  String.mk (natChars n)

/-- strftime zero-padded two-digit field (%m, %d, %H, %M, %S, %W). -/
def pad2S (n : ℕ) : String :=
  if n < 10 then "0" ++ natStr n else natStr n

/-- Gregorian leap year. -/
def isLeap (y : ℕ) : Bool :=
  y % 4 = 0 && (y % 100 != 0 || y % 400 = 0)

/-- Days in a month of a year. -/
def daysInMonth (y m : ℕ) : ℕ :=
  if m = 2 then (if isLeap y then 29 else 28)
  else if m = 4 ∨ m = 6 ∨ m = 9 ∨ m = 11 then 30
  else 31

/-- Days in the months before month m of year y. -/
def daysBeforeMonth (y m : ℕ) : ℕ :=
  ((List.range' 1 (m - 1)).map (daysInMonth y)).sum

/-- One-based day of the year of a timestamp. -/
def dayOfYear (dt : DateTime) : ℕ :=
  daysBeforeMonth dt.year dt.month + dt.day

/-- datetime.date.toordinal: day number in the proleptic Gregorian
calendar, day 1 being January 1 of year 1. -/
def toOrdinal (dt : DateTime) : ℕ :=
  365 * (dt.year - 1) + ((dt.year - 1) / 4 - (dt.year - 1) / 100 + (dt.year - 1) / 400) +
    dayOfYear dt

/-- Weekday with Monday = 0 (datetime.date.weekday); ordinal 1 was a
Monday. -/
def weekdayMon (dt : DateTime) : ℕ :=
  (toOrdinal dt + 6) % 7

/-- strftime %W: Monday-based week number of the year, days before the
first Monday belonging to week 0. -/
def weekNumW (dt : DateTime) : ℕ :=
  (dayOfYear dt + 6 - weekdayMon dt) / 7

/-- strftime "%Y-%W", the week key of visualize.group_by_week. -/
def weekKey (dt : DateTime) : String :=
  natStr dt.year ++ "-" ++ pad2S (weekNumW dt)

/-! ## Weekly grouping (visualize.group_by_week) -/

/-- Append commit c to the commits of the first entry with key w (the
dict entry: keys are unique in a dict), leaving every other entry as it
is. -/
def appendToGroup (w : String) (c : Commit) : List (String × Group) → List (String × Group)
  | [] => []
  | p :: ps =>
      if p.1 = w then (p.1, ⟨p.2.name, p.2.commits ++ [c]⟩) :: ps
      else p :: appendToGroup w c ps

/-- One step of visualize.group_by_week's update: insert an empty Group
for a new week key (at the tail, as dict insertion does), then append
the commit to its week's bucket. -/
def group_update (groups : List (String × Group)) (c : Commit) : List (String × Group) :=
  let week := weekKey c.timestamp
  appendToGroup week c
    (if (groups.lookup week).isSome then groups else groups ++ [(week, ⟨week, []⟩)])

/-- visualize.group_by_week: fold the commits into week buckets keyed by
strftime "%Y-%W" (the stdout diagnostics are a side effect outside the
model). -/
def group_by_week (commits : List Commit) : List (String × Group) :=
  list_reduce commits group_update []

/-- All commits of all buckets, in bucket order: the multiset union of
the week buckets. -/
def bucketsCommits (gs : List (String × Group)) : List Commit :=
  (gs.map (fun p => (Prod.snd p).commits)).flatten

theorem lookup_append_right {κ β : Type} [BEq κ] (l₁ l₂ : List (κ × β)) (k : κ)
    (h : l₁.lookup k = none) : (l₁ ++ l₂).lookup k = l₂.lookup k := by
  induction l₁ with
  | nil => rfl
  | cons p ps ih =>
      rw [List.cons_append]
      rw [List.lookup] at h ⊢
      cases hk : (k == p.1) with
      | true => rw [hk] at h; exact absurd h (by simp)
      | false => rw [hk] at h; exact ih h

theorem lookup_append_left {κ β : Type} [BEq κ] (l₁ l₂ : List (κ × β)) (k : κ) (v : β)
    (h : l₁.lookup k = some v) : (l₁ ++ l₂).lookup k = some v := by
  induction l₁ with
  | nil => exact absurd h (by simp)
  | cons p ps ih =>
      rw [List.cons_append]
      rw [List.lookup] at h ⊢
      cases hk : (k == p.1) with
      | true => rw [hk] at h; exact h
      | false => rw [hk] at h; exact ih h

theorem bucketsCommits_appendToGroup (w : String) (c : Commit) :
    ∀ gs : List (String × Group), (gs.lookup w).isSome →
      (bucketsCommits (appendToGroup w c gs)).Perm (bucketsCommits gs ++ [c]) := by
  intro gs
  induction gs with
  | nil => intro h; exact absurd h (by simp [List.lookup])
  | cons p ps ih =>
      intro h
      by_cases hp : p.1 = w
      · rw [appendToGroup, if_pos hp]
        show ((p.2.commits ++ [c]) ++ bucketsCommits ps).Perm
          ((p.2.commits ++ bucketsCommits ps) ++ [c])
        rw [List.append_assoc, List.append_assoc]
        exact List.Perm.append_left _ List.perm_append_comm
      · rw [appendToGroup, if_neg hp]
        have hs : (ps.lookup w).isSome := by
          rw [List.lookup] at h
          have hk : (w == p.1) = false := by
            simp [beq_iff_eq]
            exact fun e => hp e.symm
          rw [hk] at h
          exact h
        show (p.2.commits ++ bucketsCommits (appendToGroup w c ps)).Perm
          ((p.2.commits ++ bucketsCommits ps) ++ [c])
        rw [List.append_assoc]
        exact List.Perm.append_left _ (ih hs)

theorem bucketsCommits_group_update (gs : List (String × Group)) (c : Commit) :
    (bucketsCommits (group_update gs c)).Perm (bucketsCommits gs ++ [c]) := by
  simp only [group_update]
  by_cases h : (gs.lookup (weekKey c.timestamp)).isSome
  · rw [if_pos h]
    exact bucketsCommits_appendToGroup _ c gs h
  · rw [if_neg h]
    have hnone : gs.lookup (weekKey c.timestamp) = none := by
      cases hl : gs.lookup (weekKey c.timestamp) with
      | none => rfl
      | some v => rw [hl] at h; exact absurd rfl h
    have hsome : ((gs ++ [(weekKey c.timestamp, (⟨weekKey c.timestamp, []⟩ : Group))]).lookup
        (weekKey c.timestamp)).isSome := by
      rw [lookup_append_right _ _ _ hnone]
      simp [List.lookup]
    have hperm := bucketsCommits_appendToGroup (weekKey c.timestamp) c _ hsome
    have heq : bucketsCommits (gs ++ [(weekKey c.timestamp, (⟨weekKey c.timestamp, []⟩ : Group))]) =
        bucketsCommits gs := by
      simp [bucketsCommits]
    rw [heq] at hperm
    exact hperm

theorem bucketsCommits_fold (cs : List Commit) :
    ∀ gs : List (String × Group),
      (bucketsCommits (List.foldl group_update gs cs)).Perm (bucketsCommits gs ++ cs) := by
  induction cs with
  | nil => intro gs; simp
  | cons c cs ih =>
      intro gs
      rw [List.foldl_cons]
      have h1 := ih (group_update gs c)
      have h2 := (bucketsCommits_group_update gs c).append_right cs
      have h3 := h1.trans h2
      rw [List.append_assoc] at h3
      exact h3

/-- C6: the multiset union of commits over all week buckets produced by
group_by_week is a permutation of the input commit list: every commit
lands in exactly one bucket, none is duplicated or dropped. -/
theorem group_by_week_partition (commits : List Commit) :
    (bucketsCommits (group_by_week commits)).Perm commits := by
  have h := bucketsCommits_fold commits []
  simpa [group_by_week, list_reduce, bucketsCommits] using h

/-! ## Daily buckets and the calendar filler (visualize.Day) -/

/-- A day bucket, from visualize.py (class Day): the date (as its
Gregorian ordinal), the commits of that day, and the score field the
constructor initialises to 0. -/
structure Day where
  date : ℤ
  commits : List Commit
  score : ℚ
deriving DecidableEq

/-- commit.timestamp.date() as a Gregorian ordinal. -/
def dateOf (dt : DateTime) : ℤ :=
  (toOrdinal dt : ℤ)

/-- Append commit c to the commits of the first entry with key d (the
dict entry: keys are unique in a dict). -/
def appendToDay (d : ℤ) (c : Commit) : List (ℤ × Day) → List (ℤ × Day)
  | [] => []
  | p :: ps =>
      if p.1 = d then (p.1, ⟨p.2.date, p.2.commits ++ [c], p.2.score⟩) :: ps
      else p :: appendToDay d c ps

/-- One step of Day.from_commits' loop: insert an empty Day bucket for a
new date (appended at the dict tail), then append the commit. -/
def day_update (days : List (ℤ × Day)) (c : Commit) : List (ℤ × Day) :=
  let d := dateOf c.timestamp
  appendToDay d c (if (days.lookup d).isSome then days else days ++ [(d, ⟨d, [], 0⟩)])

/-- The while loop of Day._fill_missing_dates: walk cur from the minimum
to the maximum key, appending an empty Day bucket (at the dict tail, as
dict insertion does) for every date not yet present; fuel counts the
remaining loop iterations. -/
def fillLoop : ℕ → ℤ → List (ℤ × Day) → List (ℤ × Day)
  | 0, _, days => days
  | f + 1, cur, days =>
      fillLoop f (cur + 1) (if (days.lookup cur).isSome then days else days ++ [(cur, ⟨cur, [], 0⟩)])

/-- Python min() over a non-empty list of keys ([] gives a junk value 0;
the source never reaches it because of the emptiness guard). -/
def pyMinI : List ℤ → ℤ
  | [] => 0
  | x :: xs => xs.foldl min x

/-- Python max() over a non-empty list of keys. -/
def pyMaxI : List ℤ → ℤ
  | [] => 0
  | x :: xs => xs.foldl max x

/-- Day._fill_missing_dates: return an empty mapping unchanged, otherwise
loop from min(days.keys()) to max(days.keys()) inclusive inserting empty
buckets for the missing dates. -/
def fill_missing_dates (days : List (ℤ × Day)) : List (ℤ × Day) :=
  if days = [] then days
  else
    fillLoop (pyMaxI (days.map Prod.fst) - pyMinI (days.map Prod.fst) + 1).toNat
      (pyMinI (days.map Prod.fst)) days

/-- Day.from_commits: bucket the commits by date in first-seen order,
then fill the missing dates. -/
def from_commits (commits : List Commit) : List (ℤ × Day) :=
  fill_missing_dates (commits.foldl day_update [])

/-- The entries fillLoop appends: the dates of [cur, cur + f) that are
missing from days, in ascending order, each carrying an empty bucket. -/
def missingL (f : ℕ) (cur : ℤ) (days : List (ℤ × Day)) : List (ℤ × Day) :=
  ((((List.range f).map (fun i : ℕ => cur + (i : ℤ))).filter
      (fun d => (days.lookup d).isNone)).map (fun d => (d, (⟨d, [], 0⟩ : Day))))

theorem lookup_eq_none_iff {κ β : Type} [BEq κ] [LawfulBEq κ] (l : List (κ × β)) (k : κ) :
    l.lookup k = none ↔ k ∉ l.map Prod.fst := by
  induction l with
  | nil => simp
  | cons p ps ih =>
      rw [List.lookup]
      cases hk : (k == p.1) with
      | true =>
          have he : k = p.1 := eq_of_beq hk
          subst he
          simp
      | false =>
          have hne : k ≠ p.1 := by
            intro he
            subst he
            simp at hk
          rw [ih]
          simp [hne]

theorem lookup_append_single_ne {κ β : Type} [BEq κ] [LawfulBEq κ] (l : List (κ × β))
    (c k : κ) (e : β) (h : k ≠ c) : (l ++ [(c, e)]).lookup k = l.lookup k := by
  cases hl : l.lookup k with
  | some v => exact lookup_append_left l _ k v hl
  | none =>
      rw [lookup_append_right l _ k hl, List.lookup]
      have hb : (k == c) = false := by
        cases hkc : (k == c) with
        | true => exact absurd (eq_of_beq hkc) h
        | false => rfl
      rw [hb]
      rfl

theorem lookup_pairs_of_mem (g : ℤ → Day) :
    ∀ (lst : List ℤ) (k : ℤ), k ∈ lst →
      ((lst.map (fun d => (d, g d))).lookup k) = some (g k) := by
  intro lst
  induction lst with
  | nil => intro k hk; exact absurd hk (List.not_mem_nil k)
  | cons d ds ih =>
      intro k hk
      rw [List.map_cons, List.lookup]
      cases hd : (k == d) with
      | true =>
          have he : k = d := eq_of_beq hd
          subst he
          rfl
      | false =>
          have hne : k ≠ d := by
            intro he
            subst he
            simp at hd
          rcases List.mem_cons.mp hk with he | hmem
          · exact absurd he hne
          · exact ih k hmem

theorem foldl_min_le_seed (xs : List ℤ) : ∀ x : ℤ, xs.foldl min x ≤ x := by
  induction xs with
  | nil => intro x; exact le_refl x
  | cons y ys ih => intro x; exact le_trans (ih (min x y)) (min_le_left x y)

theorem foldl_min_le_of_mem (xs : List ℤ) : ∀ x k : ℤ, k ∈ xs → xs.foldl min x ≤ k := by
  induction xs with
  | nil => intro x k hk; exact absurd hk (List.not_mem_nil k)
  | cons y ys ih =>
      intro x k hk
      rcases List.mem_cons.mp hk with rfl | hk
      · exact le_trans (foldl_min_le_seed ys (min x k)) (min_le_right x k)
      · exact ih (min x y) k hk

theorem foldl_max_ge_seed (xs : List ℤ) : ∀ x : ℤ, x ≤ xs.foldl max x := by
  induction xs with
  | nil => intro x; exact le_refl x
  | cons y ys ih => intro x; exact le_trans (le_max_left x y) (ih (max x y))

theorem foldl_max_ge_of_mem (xs : List ℤ) : ∀ x k : ℤ, k ∈ xs → k ≤ xs.foldl max x := by
  induction xs with
  | nil => intro x k hk; exact absurd hk (List.not_mem_nil k)
  | cons y ys ih =>
      intro x k hk
      rcases List.mem_cons.mp hk with rfl | hk
      · exact le_trans (le_max_right x k) (foldl_max_ge_seed ys (max x k))
      · exact ih (max x y) k hk

theorem pyMinI_le_of_mem (l : List ℤ) (k : ℤ) (hk : k ∈ l) : pyMinI l ≤ k := by
  cases l with
  | nil => exact absurd hk (List.not_mem_nil k)
  | cons x xs =>
      rcases List.mem_cons.mp hk with rfl | hk
      · exact foldl_min_le_seed xs k
      · exact foldl_min_le_of_mem xs x k hk

theorem le_pyMaxI_of_mem (l : List ℤ) (k : ℤ) (hk : k ∈ l) : k ≤ pyMaxI l := by
  cases l with
  | nil => exact absurd hk (List.not_mem_nil k)
  | cons x xs =>
      rcases List.mem_cons.mp hk with rfl | hk
      · exact foldl_max_ge_seed xs k
      · exact foldl_max_ge_of_mem xs x k hk

theorem pyMinI_le_pyMaxI (l : List ℤ) (h : l ≠ []) : pyMinI l ≤ pyMaxI l := by
  cases l with
  | nil => exact absurd rfl h
  | cons x xs =>
      exact le_trans (pyMinI_le_of_mem (x :: xs) x (List.mem_cons_self x xs))
        (le_pyMaxI_of_mem (x :: xs) x (List.mem_cons_self x xs))

theorem range_map_succ_shift (f : ℕ) (cur : ℤ) :
    (List.range (f + 1)).map (fun i : ℕ => cur + (i : ℤ)) =
      cur :: (List.range f).map (fun i : ℕ => (cur + 1) + (i : ℤ)) := by
  rw [List.range_succ_eq_map, List.map_cons, List.map_map]
  simp only [Nat.cast_zero, add_zero]
  congr 1
  apply List.map_congr_left
  intro i _
  show cur + ((Nat.succ i : ℕ) : ℤ) = (cur + 1) + (i : ℤ)
  push_cast [Nat.succ_eq_add_one]
  ring

theorem fillLoop_eq : ∀ (f : ℕ) (cur : ℤ) (days : List (ℤ × Day)),
    fillLoop f cur days = days ++ missingL f cur days := by
  intro f
  induction f with
  | zero => intro cur days; simp [fillLoop, missingL]
  | succ f ih =>
      intro cur days
      rw [fillLoop]
      by_cases h : (days.lookup cur).isSome
      · rw [if_pos h, ih]
        congr 1
        unfold missingL
        rw [range_map_succ_shift, List.filter_cons]
        have hn : ((days.lookup cur).isNone) = false := by
          cases hl : days.lookup cur with
          | none => rw [hl] at h; exact absurd h (by simp)
          | some v => rfl
        rw [hn]
        simp
      · rw [if_neg h, ih]
        have hnone : days.lookup cur = none := Option.not_isSome_iff_eq_none.mp h
        have hcong : missingL f (cur + 1) (days ++ [(cur, (⟨cur, [], 0⟩ : Day))]) =
            missingL f (cur + 1) days := by
          unfold missingL
          congr 1
          apply List.filter_congr
          intro d hd
          rcases List.mem_map.mp hd with ⟨i, _, rfl⟩
          have hne : (cur + 1) + (i : ℤ) ≠ cur := by omega
          rw [lookup_append_single_ne days cur _ _ hne]
        rw [hcong, List.append_assoc]
        congr 1
        unfold missingL
        rw [range_map_succ_shift, List.filter_cons]
        have hn : ((days.lookup cur).isNone) = true := by rw [hnone]; rfl
        rw [hn]
        simp

theorem missingL_keys (f : ℕ) (cur : ℤ) (days : List (ℤ × Day)) :
    (missingL f cur days).map Prod.fst =
      ((List.range f).map (fun i : ℕ => cur + (i : ℤ))).filter (fun d => (days.lookup d).isNone) := by
  unfold missingL
  rw [List.map_map]
  exact List.map_id'' (fun _ => rfl) _

theorem fill_missing_dates_eq (days : List (ℤ × Day)) (h : days ≠ []) :
    fill_missing_dates days =
      days ++ missingL (pyMaxI (days.map Prod.fst) - pyMinI (days.map Prod.fst) + 1).toNat
        (pyMinI (days.map Prod.fst)) days := by
  unfold fill_missing_dates
  rw [if_neg h]
  exact fillLoop_eq _ _ _

/-- C3: the calendar filler returns the empty mapping unchanged; on a
non-empty mapping the key set of the result is exactly the dates from
the minimum to the maximum input key inclusive, every original bucket is
still found unchanged under its key, and every missing date is bound to
a synthetic empty bucket. -/
theorem fill_missing_dates_calendar :
    (fill_missing_dates [] = []) ∧
    (∀ days : List (ℤ × Day), days ≠ [] →
      (∀ k : ℤ, k ∈ (fill_missing_dates days).map Prod.fst ↔
        pyMinI (days.map Prod.fst) ≤ k ∧ k ≤ pyMaxI (days.map Prod.fst)) ∧
      (∀ (k : ℤ) (v : Day), days.lookup k = some v →
        (fill_missing_dates days).lookup k = some v) ∧
      (∀ k : ℤ, pyMinI (days.map Prod.fst) ≤ k → k ≤ pyMaxI (days.map Prod.fst) →
        days.lookup k = none →
        (fill_missing_dates days).lookup k = some ⟨k, [], 0⟩)) := by
  refine ⟨rfl, fun days hne => ?_⟩
  have hkeysne : days.map Prod.fst ≠ [] := by simpa using hne
  have hmima := pyMinI_le_pyMaxI (days.map Prod.fst) hkeysne
  have hfz : (((pyMaxI (days.map Prod.fst) - pyMinI (days.map Prod.fst) + 1).toNat : ℕ) : ℤ) =
      pyMaxI (days.map Prod.fst) - pyMinI (days.map Prod.fst) + 1 :=
    Int.toNat_of_nonneg (by omega)
  refine ⟨fun k => ?_, fun k v hkv => ?_, fun k hk1 hk2 hnone => ?_⟩
  · constructor
    · intro hk
      rw [fill_missing_dates_eq days hne, List.map_append] at hk
      rcases List.mem_append.mp hk with hk | hk
      · exact ⟨pyMinI_le_of_mem _ _ hk, le_pyMaxI_of_mem _ _ hk⟩
      · rw [missingL_keys] at hk
        have hk' := (List.mem_filter.mp hk).1
        rcases List.mem_map.mp hk' with ⟨i, hi, rfl⟩
        have hif := List.mem_range.mp hi
        omega
    · intro hk
      rw [fill_missing_dates_eq days hne, List.map_append]
      by_cases hmem : k ∈ days.map Prod.fst
      · exact List.mem_append.mpr (Or.inl hmem)
      · refine List.mem_append.mpr (Or.inr ?_)
        rw [missingL_keys]
        refine List.mem_filter.mpr ⟨?_, ?_⟩
        · have hi1 : (k - pyMinI (days.map Prod.fst)).toNat <
              (pyMaxI (days.map Prod.fst) - pyMinI (days.map Prod.fst) + 1).toNat := by omega
          have hi2 : pyMinI (days.map Prod.fst) +
              (((k - pyMinI (days.map Prod.fst)).toNat : ℕ) : ℤ) = k := by omega
          exact List.mem_map.mpr
            ⟨(k - pyMinI (days.map Prod.fst)).toNat, List.mem_range.mpr hi1, hi2⟩
        · rw [(lookup_eq_none_iff days k).mpr hmem]
          rfl
  · rw [fill_missing_dates_eq days hne]
    exact lookup_append_left _ _ _ _ hkv
  · rw [fill_missing_dates_eq days hne, lookup_append_right _ _ _ hnone]
    unfold missingL
    apply lookup_pairs_of_mem
    refine List.mem_filter.mpr ⟨?_, ?_⟩
    · have hi1 : (k - pyMinI (days.map Prod.fst)).toNat <
          (pyMaxI (days.map Prod.fst) - pyMinI (days.map Prod.fst) + 1).toNat := by omega
      have hi2 : pyMinI (days.map Prod.fst) +
          (((k - pyMinI (days.map Prod.fst)).toNat : ℕ) : ℤ) = k := by omega
      exact List.mem_map.mpr
        ⟨(k - pyMinI (days.map Prod.fst)).toNat, List.mem_range.mpr hi1, hi2⟩
    · rw [hnone]
      rfl

/-- A sparse demo mapping: days 0 and 2 present, day 1 missing. -/
def demoDays : List (ℤ × Day) :=
  [(0, ⟨0, [], 0⟩), (2, ⟨2, [], 0⟩)]

/-- C3 witness: the calendar theorem applied to the demo mapping with
days 0 and 2 (day 1 missing), discharging the non-emptiness hypothesis. -/
theorem fill_missing_dates_calendar_witness :
    (demoDays ≠ []) ∧
    ((∀ k : ℤ, k ∈ (fill_missing_dates demoDays).map Prod.fst ↔
        pyMinI (demoDays.map Prod.fst) ≤ k ∧ k ≤ pyMaxI (demoDays.map Prod.fst)) ∧
      (∀ (k : ℤ) (v : Day), demoDays.lookup k = some v →
        (fill_missing_dates demoDays).lookup k = some v) ∧
      (∀ k : ℤ, pyMinI (demoDays.map Prod.fst) ≤ k → k ≤ pyMaxI (demoDays.map Prod.fst) →
        demoDays.lookup k = none →
        (fill_missing_dates demoDays).lookup k = some ⟨k, [], 0⟩)) :=
  ⟨by decide, fill_missing_dates_calendar.2 demoDays (by decide)⟩

/-- C4 (amended): the filler keeps the input's key order and appends the
missing dates at the tail, in ascending order; the result's key order is
therefore not ascending in general (see the counterexample). -/
theorem fill_missing_dates_append_order (days : List (ℤ × Day)) (h : days ≠ []) :
    ∃ extra : List (ℤ × Day),
      fill_missing_dates days = days ++ extra ∧
      List.Sorted (· < ·) (extra.map Prod.fst) ∧
      ∀ k ∈ extra.map Prod.fst, days.lookup k = none := by
  refine ⟨missingL (pyMaxI (days.map Prod.fst) - pyMinI (days.map Prod.fst) + 1).toNat
    (pyMinI (days.map Prod.fst)) days, fill_missing_dates_eq days h, ?_, ?_⟩
  · rw [missingL_keys]
    apply List.Pairwise.filter
    refine List.Pairwise.map _ ?_ (List.pairwise_lt_range _)
    intro a b hab
    omega
  · intro k hk
    rw [missingL_keys] at hk
    have := (List.mem_filter.mp hk).2
    exact Option.eq_none_iff_forall_not_mem.mpr (by
      intro v hv
      rw [Option.isNone_iff_eq_none.mp this] at hv
      exact absurd hv (by simp))

/-- C4 witness: the append-order theorem applied to the demo mapping. -/
theorem fill_missing_dates_append_order_witness :
    (demoDays ≠ []) ∧
    ∃ extra : List (ℤ × Day),
      fill_missing_dates demoDays = demoDays ++ extra ∧
      List.Sorted (· < ·) (extra.map Prod.fst) ∧
      ∀ k ∈ extra.map Prod.fst, demoDays.lookup k = none :=
  ⟨by decide, fill_missing_dates_append_order demoDays (by decide)⟩

/-- C4 counterexample: filling the mapping with keys 0 and 2 appends the
missing day 1 at the tail, so the key order of the result is 0, 2, 1 —
not ascending date order. -/
theorem fill_missing_dates_order_cex :
    ((fill_missing_dates demoDays).map Prod.fst = [0, 2, 1]) ∧
    ¬ List.Sorted (· ≤ ·) ((fill_missing_dates demoDays).map Prod.fst) := by
  constructor
  · decide
  · decide

/-! ## The bar renderer (visualize.build_bars) -/

/-- Python str(n) for an int (a minus sign before the decimal digits). -/
def pyStr (n : ℤ) : String :=
  String.mk (if n < 0 then '-' :: natChars (-n).toNat else natChars n.toNat)

/-- Python int() on an exact rational: truncation toward zero. -/
def ratTrunc (q : ℚ) : ℤ :=
  if q < 0 then -⌊-q⌋ else ⌊q⌋

/-- visualize.build_bars, translated line for line: sort the dict keys
ascending (Python sorted on strings is lexicographic by code point, as
Lean's String order is), look each key up, and render
name ++ two spaces ++ str(change) ++ spaces up to field width 5 ++
block repeated int(score * width) times ++ newline.  block and width are
the source's keyword parameters (defaults u2580 and 50). -/
def build_bars (groups : List (String × Group)) (stddev_range : ℤ × ℤ × ℤ)
    (block : Char) (width : ℤ) : List String :=
  ((groups.map Prod.fst).mergeSort (fun a b => decide (a ≤ b))).filterMap
    (fun name => (groups.lookup name).map (fun g =>
      g.name ++ "  " ++ pyStr g.change ++
        String.mk (List.replicate (5 - (pyStr g.change).length) ' ') ++
        String.mk (List.replicate
          (ratTrunc (g.get_score stddev_range.2.1 stddev_range.2.2 * (width : ℚ))).toNat block) ++
        "\n"))

/-- The groups sorted ascending by week key (stable). -/
def sortByKey (groups : List (String × Group)) : List (String × Group) :=
  groups.mergeSort (fun a b => decide (a.1 ≤ b.1))

/-- One rendered bar line for the entry p, written with p's key: the key,
two spaces, str(change) right-padded with spaces to a minimum combined
field width of 5, the block repeated int(score * width) times, and a
newline. -/
def barLine (block : Char) (width : ℤ) (lower upper : ℤ) (p : String × Group) : String :=
  p.1 ++ "  " ++ pyStr (Prod.snd p).change ++
    String.mk (List.replicate (5 - (pyStr (Prod.snd p).change).length) ' ') ++
    String.mk (List.replicate
      (ratTrunc ((Prod.snd p).get_score lower upper * (width : ℚ))).toNat block) ++
    "\n"

theorem lookup_of_nodup_mem {κ β : Type} [BEq κ] [LawfulBEq κ] :
    ∀ (l : List (κ × β)) (k : κ) (v : β),
      (l.map Prod.fst).Nodup → (k, v) ∈ l → l.lookup k = some v := by
  intro l
  induction l with
  | nil => intro k v _ hm; exact absurd hm (List.not_mem_nil _)
  | cons p ps ih =>
      intro k v hnd hm
      rw [List.lookup]
      rcases List.mem_cons.mp hm with he | hm'
      · rw [← he]
        simp
      · cases hk : (k == p.1) with
        | true =>
            have he2 : k = p.1 := eq_of_beq hk
            have hmem : p.1 ∈ ps.map Prod.fst :=
              List.mem_map.mpr ⟨(k, v), hm', he2⟩
            rw [List.map_cons] at hnd
            exact absurd hmem (List.nodup_cons.mp hnd).1
        | false =>
            rw [List.map_cons] at hnd
            exact ih k v (List.nodup_cons.mp hnd).2 hm'

theorem filterMap_eq_map_of_forall {α β : Type} (f : α → Option β) (g : α → β) :
    ∀ l : List α, (∀ x ∈ l, f x = some (g x)) → l.filterMap f = l.map g := by
  intro l
  induction l with
  | nil => intro _; rfl
  | cons a l ih =>
      intro h
      rw [List.filterMap_cons, h a (List.mem_cons_self a l), List.map_cons,
        ih (fun x hx => h x (List.mem_cons_of_mem a hx))]

theorem sortByKey_sorted (groups : List (String × Group)) :
    List.Pairwise (fun p q : String × Group => p.1 ≤ q.1) (sortByKey groups) := by
  have h := @List.sorted_mergeSort (String × Group)
    (fun p q => decide (p.1 ≤ q.1))
    (fun a b c h1 h2 => by
      simp only [decide_eq_true_eq] at h1 h2 ⊢
      exact le_trans h1 h2)
    (fun a b => by
      rcases le_total a.1 b.1 with h | h <;> simp [h])
    groups
  exact h.imp (fun hab => of_decide_eq_true hab)

theorem mergeSort_keys_eq (groups : List (String × Group)) :
    (groups.map Prod.fst).mergeSort (fun a b => decide (a ≤ b)) =
      (sortByKey groups).map Prod.fst := by
  have hperm : (((groups.map Prod.fst).mergeSort (fun a b => decide (a ≤ b))).Perm
      ((sortByKey groups).map Prod.fst)) :=
    (List.mergeSort_perm _ _).trans ((List.mergeSort_perm groups _).map Prod.fst).symm
  have hs1 : List.Sorted (· ≤ ·) ((groups.map Prod.fst).mergeSort (fun a b => decide (a ≤ b))) := by
    have h := @List.sorted_mergeSort String
      (fun a b => decide (a ≤ b))
      (fun a b c h1 h2 => by
        simp only [decide_eq_true_eq] at h1 h2 ⊢
        exact le_trans h1 h2)
      (fun a b => by
        rcases le_total a b with h | h <;> simp [h])
      (groups.map Prod.fst)
    exact h.imp (fun hab => of_decide_eq_true hab)
  have hs2 : List.Sorted (· ≤ ·) ((sortByKey groups).map Prod.fst) :=
    (sortByKey_sorted groups).map Prod.fst (fun a b hab => hab)
  exact List.eq_of_perm_of_sorted hperm hs1 hs2

theorem build_bars_eq (groups : List (String × Group)) (r : ℤ × ℤ × ℤ)
    (hnd : (groups.map Prod.fst).Nodup)
    (hname : ∀ p ∈ groups, (Prod.snd p).name = p.1) :
    build_bars groups r '▀' 50 = (sortByKey groups).map (barLine '▀' 50 r.2.1 r.2.2) := by
  unfold build_bars
  rw [mergeSort_keys_eq, List.filterMap_map]
  apply filterMap_eq_map_of_forall
  intro p hp
  have hpg : p ∈ groups := ((List.mergeSort_perm groups _).mem_iff).mp hp
  have hlk : groups.lookup p.1 = some p.2 := by
    apply lookup_of_nodup_mem groups p.1 p.2 hnd
    simpa using hpg
  show (groups.lookup p.1).map _ = _
  rw [hlk]
  simp only [Option.map_some']
  unfold barLine
  rw [hname p hpg]

/-- C5 (amended): build_bars renders one line per group in ascending key
order; each line is the key, two spaces, the decimal change magnitude
RIGHT-padded with spaces to a minimum combined field width of 5, the
block repeated floor(score * 50) times, and a newline.  (The claim's
left-padding is refuted by the counterexample.) -/
theorem build_bars_sorted_format (groups : List (String × Group)) (r : ℤ × ℤ × ℤ)
    (hnd : (groups.map Prod.fst).Nodup)
    (hname : ∀ p ∈ groups, (Prod.snd p).name = p.1) :
    build_bars groups r '▀' 50 = (sortByKey groups).map (barLine '▀' 50 r.2.1 r.2.2) ∧
    (build_bars groups r '▀' 50).length = groups.length ∧
    List.Sorted (· ≤ ·) ((sortByKey groups).map Prod.fst) := by
  refine ⟨build_bars_eq groups r hnd hname, ?_, ?_⟩
  · rw [build_bars_eq groups r hnd hname, List.length_map]
    exact (List.mergeSort_perm groups _).length_eq
  · exact (sortByKey_sorted groups).map Prod.fst (fun a b hab => hab)

/-- C5 witness: the renderer theorem applied to the two-group demo
mapping, discharging the unique-keys and name-matches-key hypotheses. -/
theorem build_bars_sorted_format_witness :
    ((demoGroups.map Prod.fst).Nodup) ∧
    (∀ p ∈ demoGroups, (Prod.snd p).name = p.1) ∧
    (build_bars demoGroups (65, 16, 114) '▀' 50 =
        (sortByKey demoGroups).map (barLine '▀' 50 (65, 16, 114).2.1 (65, 16, 114).2.2) ∧
      (build_bars demoGroups (65, 16, 114) '▀' 50).length = demoGroups.length ∧
      List.Sorted (· ≤ ·) ((sortByKey demoGroups).map Prod.fst)) :=
  ⟨by decide, by decide,
    build_bars_sorted_format demoGroups (65, 16, 114) (by decide) (by decide)⟩

/-- A one-group mapping with change magnitude 30, rendered against the
degenerate range (30, 30): score 0, so no blocks follow the padding. -/
def demoGroups1 : List (String × Group) :=
  [("2024-01", ⟨"2024-01", [c30]⟩)]

/-- C5 counterexample: the rendered line puts the spaces AFTER the
decimal magnitude ("2024-01  30   \n"), not before it as the claimed
left-padding would ("2024-01     30\n"). -/
theorem build_bars_padding_cex :
    build_bars demoGroups1 (30, 30, 30) '▀' 50 = ["2024-01  30   \n"] ∧
    ("2024-01  30   \n" : String) ≠ "2024-01     30\n" := by
  have hch : (Group.mk "2024-01" [c30]).change = 30 := by decide
  have hscore : (Group.mk "2024-01" [c30]).get_score 30 30 = 0 := by
    unfold Group.get_score
    rw [hch]
    norm_num
  have htr : ratTrunc ((Group.mk "2024-01" [c30]).get_score 30 30 * ((50 : ℤ) : ℚ)) = 0 := by
    rw [hscore, zero_mul]
    unfold ratTrunc
    norm_num
  constructor
  · rw [build_bars_eq demoGroups1 (30, 30, 30) (by decide) (by decide)]
    rw [show sortByKey demoGroups1 = [("2024-01", Group.mk "2024-01" [c30])] from
      List.mergeSort_singleton _, List.map_cons, List.map_nil]
    unfold barLine
    rw [show ((30, 30, 30) : ℤ × ℤ × ℤ).2.1 = 30 from rfl,
      show ((30, 30, 30) : ℤ × ℤ × ℤ).2.2 = 30 from rfl]
    rw [show (Prod.snd (("2024-01", Group.mk "2024-01" [c30]) : String × Group)) =
      Group.mk "2024-01" [c30] from rfl, htr, hch]
    decide
  · decide

/-! ## CSV serialization (collect.save_commits / Commit.from_csv_file)

The writer side models csv.writer with the default dialect: QUOTE_MINIMAL
(a field containing a comma, quote or newline is wrapped in double quotes
with inner quotes doubled) and CRLF line terminator.  The reader side
models opening the file in text mode (universal newlines), iterating its
lines, and csv.reader's per-line field scanner.  strftime/strptime for
the fixed format "%Y-%m-%d %H:%M:%S" are modelled exactly: strptime reads
1-4 year digits and 1-2 digits per other field greedily, then the
datetime constructor's range checks apply (the day-in-month bound beyond
31 is not modelled; the round trip never parses an invalid date). -/

/-- Value of a most-significant-first decimal digit string. -/
def digitsVal (cs : List Char) : ℕ :=
  cs.foldl (fun a c => 10 * a + (c.toNat - 48)) 0

/-- strftime "%Y-%m-%d %H:%M:%S" (collect.Commit.to_csv_row's timestamp
field): the year unpadded (always four digits for years 1000-9999), the
other fields zero-padded to two digits. -/
def formatTimestamp (dt : DateTime) : String :=
  natStr dt.year ++ "-" ++ pad2S dt.month ++ "-" ++ pad2S dt.day ++ " " ++
    pad2S dt.hour ++ ":" ++ pad2S dt.minute ++ ":" ++ pad2S dt.second

/-- collect.Commit.to_csv_row: the six fields of one CSV record. -/
def to_csv_row (c : Commit) : List String :=
  [c.repository, c.sha, formatTimestamp c.timestamp, c.author, pyStr c.added, pyStr c.removed]

/-- csv.writer QUOTE_MINIMAL: does the field need quoting? -/
def needsQuote (s : String) : Bool :=
  s.data.any (fun c => c = ',' || c = '"' || c = '\n' || c = '\r')

/-- Double every quote character (csv doublequote escaping). -/
def escQuotes : List Char → List Char
  | [] => []
  | c :: cs => if c = '"' then '"' :: '"' :: escQuotes cs else c :: escQuotes cs

/-- One encoded field of csv.writer's output. -/
def encodeFieldChars (s : String) : List Char :=
  if needsQuote s then '"' :: (escQuotes s.data ++ ['"']) else s.data

/-- The body of one CSV row: the encoded fields joined by commas. -/
def rowBody : List String → List Char
  | [] => []
  | [f] => encodeFieldChars f
  | f :: g :: fs => encodeFieldChars f ++ ',' :: rowBody (g :: fs)

/-- One full CSV row: the body plus csv.writer's CRLF terminator. -/
def encodeRow (fs : List String) : List Char :=
  rowBody fs ++ ['\r', '\n']

/-- The header row collect.save_commits writes. -/
def csvHeader : List String :=
  ["Repository", "SHA", "Timestamp", "Author", "Added", "Removed"]

/-- collect.save_commits: the text written to the output file (header row
then one row per commit). -/
def save_commits (commits : List Commit) : String :=
  String.mk (encodeRow csvHeader ++ (commits.map (fun c => encodeRow (to_csv_row c))).flatten)

/-- Universal-newline translation of text-mode reading: CRLF and lone CR
both become LF. -/
def univNewlines : List Char → List Char
  | [] => []
  | '\r' :: '\n' :: cs => '\n' :: univNewlines cs
  | '\r' :: cs => '\n' :: univNewlines cs
  | c :: cs => c :: univNewlines cs

/-- Line splitting of file iteration: lines without their terminator, a
trailing newline producing no extra empty line. -/
def splitGo : List Char → List Char → List (List Char)
  | [], acc => if acc.isEmpty then [] else [acc.reverse]
  | '\n' :: cs, acc => acc.reverse :: splitGo cs []
  | c :: cs, acc => splitGo cs (c :: acc)

def splitLines (cs : List Char) : List (List Char) :=
  splitGo cs []

/-- csv.reader's field scanner over one line: the remaining characters,
whether the scanner is inside a quoted section, and the current field's
characters in reverse. -/
def csvGo : List Char → Bool → List Char → List String
  | [], _, acc => [String.mk acc.reverse]
  | '"' :: '"' :: cs, true, acc => csvGo cs true ('"' :: acc)
  | '"' :: cs, true, acc => csvGo cs false acc
  | c :: cs, true, acc => csvGo cs true (c :: acc)
  | ',' :: cs, false, acc => String.mk acc.reverse :: csvGo cs false []
  | '"' :: cs, false, acc => if acc.isEmpty then csvGo cs true acc else csvGo cs false ('"' :: acc)
  | c :: cs, false, acc => csvGo cs false (c :: acc)

/-- csv.reader on one line. -/
def parseFields (line : List Char) : List String :=
  csvGo line false []

/-- Take up to k leading decimal digits (a greedy bounded digit group of
strptime's compiled pattern). -/
def takeDigits : ℕ → List Char → List Char × List Char
  | 0, cs => ([], cs)
  | _ + 1, [] => ([], [])
  | k + 1, c :: cs =>
      if c.isDigit then
        let p := takeDigits k cs
        (c :: p.1, p.2)
      else ([], c :: cs)

/-- Read a 1-to-k digit number greedily. -/
def readNum (k : ℕ) (cs : List Char) : Option (ℕ × List Char) :=
  let p := takeDigits k cs
  if p.1.isEmpty then none else some (digitsVal p.1, p.2)

/-- Take exactly k leading digits, failing if any of the first k
characters is missing or not a digit (the fixed-width digit group of
strptime's compiled pattern: %Y is four digits exactly). -/
def takeExactDigits : ℕ → List Char → Option (List Char × List Char)
  | 0, cs => some ([], cs)
  | _ + 1, [] => none
  | k + 1, c :: cs =>
      if c.isDigit then (takeExactDigits k cs).map (fun p => (c :: p.1, p.2)) else none

/-- Read an exactly-k-digit number. -/
def readNumExact (k : ℕ) (cs : List Char) : Option (ℕ × List Char) :=
  (takeExactDigits k cs).map (fun p => (digitsVal p.1, p.2))

/-- Consume one expected literal character. -/
def expectChar (c : Char) : List Char → Option (List Char)
  | [] => none
  | x :: xs => if x = c then some xs else none

/-- datetime.strptime(s, "%Y-%m-%d %H:%M:%S"), including the constructor's
field range checks (day-in-month validation beyond the 1..31 bound is not
modelled).  CPython compiles %Y to exactly four digits and %m, %d, %H,
%M, %S to one or two digits read greedily. -/
def parseTimestamp (s : String) : Option DateTime := do
  let p1 ← readNumExact 4 s.data
  let r2 ← expectChar '-' p1.2
  let p3 ← readNum 2 r2
  let r4 ← expectChar '-' p3.2
  let p5 ← readNum 2 r4
  let r6 ← expectChar ' ' p5.2
  let p7 ← readNum 2 r6
  let r8 ← expectChar ':' p7.2
  let p9 ← readNum 2 r8
  let r10 ← expectChar ':' p9.2
  let p11 ← readNum 2 r10
  if p11.2 = [] ∧ 1 ≤ p1.1 ∧ p1.1 ≤ 9999 ∧ 1 ≤ p3.1 ∧ p3.1 ≤ 12 ∧ 1 ≤ p5.1 ∧ p5.1 ≤ 31 ∧
      p7.1 ≤ 23 ∧ p9.1 ≤ 59 ∧ p11.1 ≤ 59 then
    some ⟨p1.1, p3.1, p5.1, p7.1, p9.1, p11.1⟩
  else none

/-- A non-empty all-digit string (the shape Python int() accepts from
str(int) output). -/
def parseNatDigits (ds : List Char) : Option ℕ :=
  if ds.isEmpty then none
  else if ds.all Char.isDigit then some (digitsVal ds) else none

/-- Python int() on the canonical string of an int: an optional minus sign
followed by decimal digits. -/
def parseIntStr (s : String) : Option ℤ :=
  match s.data with
  | [] => none
  | c :: cs =>
      if c = '-' then (parseNatDigits cs).map (fun n : ℕ => -(n : ℤ))
      else (parseNatDigits (c :: cs)).map (fun n : ℕ => (n : ℤ))

/-- One parsed CSV record: exactly six fields (the tuple unpacking of
from_csv_file), a parsable timestamp and two parsable ints. -/
def parseCommitRow (fields : List String) : Option Commit :=
  match fields with
  | [rep, sha, ts, au, ad, rm] =>
      match parseTimestamp ts, parseIntStr ad, parseIntStr rm with
      | some t, some a, some r => some ⟨rep, sha, t, au, a, r⟩
      | _, _, _ => none
  | _ => none

/-- collect.Commit.from_csv_file on the file's text: skip the header row
(none on an empty file: next() raises), parse every remaining row; any
malformed row is a fatal parse failure (none). -/
def from_csv_file (content : String) : Option (List Commit) :=
  match splitLines (univNewlines content.data) with
  | [] => none
  | _ :: rows => rows.mapM (fun line => parseCommitRow (parseFields line))

/-- String fields that survive the CSV round trip: no newline and no
carriage return (both are destroyed by universal-newline translation or
line splitting; commas and quotes are fine, the writer quotes them). -/
def crlfFree (s : String) : Prop :=
  '\n' ∉ s.data ∧ '\r' ∉ s.data

/-- The timestamp ranges of a datetime value that survive the format:
strftime %Y writes the year unpadded, and strptime %Y demands exactly
four digits, so years below 1000 are written with fewer digits and then
rejected on reading (a fatal parse failure); the round trip holds
exactly for four-digit years. -/
def validTime (t : DateTime) : Prop :=
  1000 ≤ t.year ∧ t.year ≤ 9999 ∧ 1 ≤ t.month ∧ t.month ≤ 12 ∧ 1 ≤ t.day ∧ t.day ≤ 31 ∧
    t.hour ≤ 23 ∧ t.minute ≤ 59 ∧ t.second ≤ 59

/-- A commit the CSV round trip preserves: CR/LF-free string fields and a
valid timestamp. -/
def validCommit (c : Commit) : Prop :=
  crlfFree c.repository ∧ crlfFree c.sha ∧ crlfFree c.author ∧ validTime c.timestamp

/-! ### Conditional equations for the literal-pattern scanners -/

theorem univNewlines_cons_ne (c : Char) (cs : List Char) (h : c ≠ '\r') :
    univNewlines (c :: cs) = c :: univNewlines cs := by
  rw [univNewlines.eq_def]
  split <;> simp_all

theorem splitGo_cons_ne (c : Char) (cs acc : List Char) (h : c ≠ '\n') :
    splitGo (c :: cs) acc = splitGo cs (c :: acc) := by
  rw [splitGo.eq_def]
  split <;> simp_all

theorem csvGo_true_close (cs acc : List Char) (h : cs.head? ≠ some '"') :
    csvGo ('"' :: cs) true acc = csvGo cs false acc := by
  rw [csvGo.eq_def]
  split <;> try simp_all
  rename_i hne heq
  exact absurd heq.1.symm hne

theorem csvGo_true_other (c : Char) (cs acc : List Char) (h : c ≠ '"') :
    csvGo (c :: cs) true acc = csvGo cs true (c :: acc) := by
  rw [csvGo.eq_def]
  split <;> simp_all

theorem csvGo_false_other (c : Char) (cs acc : List Char) (h1 : c ≠ ',') (h2 : c ≠ '"') :
    csvGo (c :: cs) false acc = csvGo cs false (c :: acc) := by
  rw [csvGo.eq_def]
  split <;> simp_all

/-! ### Digit strings round-trip -/

theorem digitChar_isDigit : ∀ d : ℕ, d < 10 → (Nat.digitChar d).isDigit = true := by decide

theorem digitChar_val : ∀ d : ℕ, d < 10 → (Nat.digitChar d).toNat - 48 = d := by decide

theorem digitsVal_append (xs : List Char) (c : Char) :
    digitsVal (xs ++ [c]) = 10 * digitsVal xs + (c.toNat - 48) := by
  unfold digitsVal
  rw [List.foldl_append]
  rfl

theorem natCharsGo_zero : ∀ f : ℕ, natCharsGo 0 f = [] := by
  intro f
  cases f <;> rfl

theorem natCharsGo_val : ∀ f n : ℕ, n ≤ f → digitsVal (natCharsGo n f) = n := by
  intro f
  induction f with
  | zero =>
      intro n hn
      have h0 : n = 0 := Nat.le_zero.mp hn
      subst h0
      rfl
  | succ f ih =>
      intro n hn
      by_cases h0 : n = 0
      · subst h0
        rw [natCharsGo_zero]
        rfl
      · rw [natCharsGo, if_neg h0, digitsVal_append]
        have hd : n / 10 ≤ f := by
          have := Nat.div_lt_self (Nat.pos_of_ne_zero h0) (by norm_num : 1 < 10)
          omega
        rw [ih (n / 10) hd]
        have hv := digitChar_val (n % 10) (Nat.mod_lt n (by norm_num))
        omega

theorem natCharsGo_digits : ∀ (f n : ℕ) (c : Char), c ∈ natCharsGo n f → c.isDigit = true := by
  intro f
  induction f with
  | zero =>
      intro n c hc
      rw [show natCharsGo n 0 = [] from rfl] at hc
      exact absurd hc (List.not_mem_nil c)
  | succ f ih =>
      intro n c hc
      rw [natCharsGo] at hc
      by_cases h0 : n = 0
      · rw [if_pos h0] at hc
        exact absurd hc (List.not_mem_nil c)
      · rw [if_neg h0] at hc
        rcases List.mem_append.mp hc with hc | hc
        · exact ih _ c hc
        · have he := List.mem_singleton.mp hc
          subst he
          exact digitChar_isDigit _ (Nat.mod_lt n (by norm_num))

theorem natChars_val (n : ℕ) : digitsVal (natChars n) = n := by
  unfold natChars
  split_ifs with h0
  · subst h0
    rfl
  · exact natCharsGo_val n n (le_refl n)

theorem natChars_digits (n : ℕ) : ∀ c ∈ natChars n, c.isDigit = true := by
  unfold natChars
  split_ifs with h0
  · intro c hc
    have he := List.mem_singleton.mp hc
    subst he
    decide
  · intro c hc
    exact natCharsGo_digits n n c hc

theorem natChars_ne_nil (n : ℕ) : natChars n ≠ [] := by
  unfold natChars
  split_ifs with h0
  · simp
  · cases n with
    | zero => exact absurd rfl h0
    | succ m =>
        rw [natCharsGo, if_neg h0]
        simp

theorem natCharsGo_length : ∀ f n k : ℕ, n ≤ f → n < 10 ^ k → (natCharsGo n f).length ≤ k := by
  intro f
  induction f with
  | zero =>
      intro n k hn _
      have h0 : n = 0 := Nat.le_zero.mp hn
      subst h0
      simp [natCharsGo]
  | succ f ih =>
      intro n k hn hpow
      by_cases h0 : n = 0
      · subst h0
        rw [natCharsGo_zero]
        simp
      · rw [natCharsGo, if_neg h0, List.length_append, List.length_singleton]
        cases k with
        | zero =>
            exfalso
            simp at hpow
            omega
        | succ j =>
            have hd : n / 10 ≤ f := by
              have := Nat.div_lt_self (Nat.pos_of_ne_zero h0) (by norm_num : 1 < 10)
              omega
            have hp : n / 10 < 10 ^ j := by
              rw [Nat.div_lt_iff_lt_mul (by norm_num : 0 < 10)]
              calc n < 10 ^ (j + 1) := hpow
                _ = 10 ^ j * 10 := by ring
            have := ih (n / 10) j hd hp
            omega

theorem natChars_length_le (n k : ℕ) (hk : 1 ≤ k) (h : n < 10 ^ k) :
    (natChars n).length ≤ k := by
  unfold natChars
  split_ifs with h0
  · simpa using hk
  · exact natCharsGo_length n n k (le_refl n) h

theorem natCharsGo_length_ge : ∀ f n k : ℕ, n ≤ f → 10 ^ k ≤ n → k + 1 ≤ (natCharsGo n f).length := by
  intro f
  induction f with
  | zero =>
      intro n k hn hp
      have h0 : n = 0 := Nat.le_zero.mp hn
      subst h0
      exact absurd hp (Nat.not_le.mpr (pow_pos (by norm_num) k))
  | succ f ih =>
      intro n k hn hp
      have h0 : n ≠ 0 := by
        intro he
        subst he
        exact absurd hp (Nat.not_le.mpr (pow_pos (by norm_num) k))
      rw [natCharsGo, if_neg h0, List.length_append, List.length_singleton]
      cases k with
      | zero => omega
      | succ j =>
          have hd : n / 10 ≤ f := by
            have := Nat.div_lt_self (Nat.pos_of_ne_zero h0) (by norm_num : 1 < 10)
            omega
          have hp2 : 10 ^ j ≤ n / 10 := by
            rw [Nat.le_div_iff_mul_le (by norm_num : 0 < 10)]
            calc 10 ^ j * 10 = 10 ^ (j + 1) := by ring
              _ ≤ n := hp
          have := ih (n / 10) j hd hp2
          omega

theorem natChars_length_four (y : ℕ) (h1 : 1000 ≤ y) (h2 : y ≤ 9999) :
    (natChars y).length = 4 := by
  have hle : (natChars y).length ≤ 4 := natChars_length_le y 4 (by norm_num) (by norm_num; omega)
  have hge : 4 ≤ (natChars y).length := by
    unfold natChars
    rw [if_neg (by omega : ¬y = 0)]
    have := natCharsGo_length_ge y y 3 (le_refl y) (by norm_num; omega)
    omega
  omega

theorem natChars_single (n : ℕ) (h : n < 10) : natChars n = [Nat.digitChar n] := by
  unfold natChars
  split_ifs with h0
  · subst h0
    rfl
  · cases n with
    | zero => exact absurd rfl h0
    | succ m =>
        rw [natCharsGo, if_neg h0, Nat.div_eq_of_lt h, Nat.mod_eq_of_lt h, natCharsGo_zero]
        rfl

/-- Zero-padded two-digit field as a character list. -/
def pad2C (n : ℕ) : List Char :=
  if n < 10 then '0' :: natChars n else natChars n

theorem pad2S_data (n : ℕ) : (pad2S n).data = pad2C n := by
  unfold pad2S pad2C
  split_ifs with h
  · rw [String.data_append]
    rfl
  · rfl

theorem pad2C_digits (n : ℕ) : ∀ c ∈ pad2C n, c.isDigit = true := by
  unfold pad2C
  split_ifs with h
  · intro c hc
    rcases List.mem_cons.mp hc with rfl | hc
    · decide
    · exact natChars_digits n c hc
  · exact natChars_digits n

theorem digitsVal_cons_zero (l : List Char) : digitsVal ('0' :: l) = digitsVal l := by
  unfold digitsVal
  rw [List.foldl_cons]
  have h : 10 * 0 + ('0'.toNat - 48) = 0 := by decide
  rw [h]

theorem pad2C_val (n : ℕ) : digitsVal (pad2C n) = n := by
  unfold pad2C
  split_ifs with h
  · rw [digitsVal_cons_zero, natChars_val]
  · exact natChars_val n

theorem pad2C_length (n : ℕ) (h : n < 100) : (pad2C n).length ≤ 2 := by
  unfold pad2C
  split_ifs with h10
  · rw [List.length_cons, natChars_single n h10]
    simp
  · exact natChars_length_le n 2 (by norm_num) (by norm_num; omega)

theorem pad2C_ne_nil (n : ℕ) : pad2C n ≠ [] := by
  unfold pad2C
  split_ifs with h
  · simp
  · exact natChars_ne_nil n

theorem takeDigits_exact : ∀ (ds : List Char) (k : ℕ) (rest : List Char),
    (∀ c ∈ ds, c.isDigit = true) → ds.length ≤ k →
    (∀ c, rest.head? = some c → c.isDigit = false) →
    takeDigits k (ds ++ rest) = (ds, rest) := by
  intro ds
  induction ds with
  | nil =>
      intro k rest _ _ hrest
      cases k with
      | zero => rfl
      | succ j =>
          cases rest with
          | nil => rfl
          | cons c cs =>
              rw [List.nil_append, takeDigits]
              simp [hrest c rfl]
  | cons d ds' ih =>
      intro k rest hdig hlen hrest
      cases k with
      | zero => simp at hlen
      | succ j =>
          have hih := ih j rest (fun c hc => hdig c (List.mem_cons_of_mem d hc))
            (by simpa using hlen) hrest
          rw [List.cons_append, takeDigits]
          simp [hdig d (List.mem_cons_self d ds'), hih]

theorem readNum_exact (ds rest : List Char) (k : ℕ)
    (hdig : ∀ c ∈ ds, c.isDigit = true) (hne : ds ≠ []) (hlen : ds.length ≤ k)
    (hrest : ∀ c, rest.head? = some c → c.isDigit = false) :
    readNum k (ds ++ rest) = some (digitsVal ds, rest) := by
  unfold readNum
  rw [takeDigits_exact ds k rest hdig hlen hrest]
  simp [hne]

theorem takeExactDigits_exact : ∀ ds rest : List Char, (∀ c ∈ ds, c.isDigit = true) →
    takeExactDigits ds.length (ds ++ rest) = some (ds, rest) := by
  intro ds
  induction ds with
  | nil => intro rest _; rfl
  | cons d ds' ih =>
      intro rest h
      rw [List.length_cons, List.cons_append, takeExactDigits]
      simp [h d (List.mem_cons_self d ds'),
        ih rest (fun c hc => h c (List.mem_cons_of_mem d hc))]

theorem readNumExact_exact (ds rest : List Char) (h : ∀ c ∈ ds, c.isDigit = true) :
    readNumExact ds.length (ds ++ rest) = some (digitsVal ds, rest) := by
  unfold readNumExact
  rw [takeExactDigits_exact ds rest h]
  rfl

theorem readNum2_pad (n : ℕ) (rest : List Char) (hn : n < 100)
    (hrest : ∀ c, rest.head? = some c → c.isDigit = false) :
    readNum 2 (pad2C n ++ rest) = some (n, rest) := by
  have h := readNum_exact (pad2C n) rest 2 (pad2C_digits n) (pad2C_ne_nil n)
    (pad2C_length n hn) hrest
  rw [pad2C_val] at h
  exact h

theorem head_nondigit (c0 : Char) (l : List Char) (h : c0.isDigit = false) :
    ∀ c, ((c0 :: l).head? = some c) → c.isDigit = false := by
  intro c hc
  rw [List.head?_cons, Option.some.injEq] at hc
  subst hc
  exact h

theorem head_nondigit_nil : ∀ c, (([] : List Char).head? = some c) → c.isDigit = false := by
  intro c hc
  simp at hc

theorem formatTimestamp_data (dt : DateTime) :
    (formatTimestamp dt).data =
      natChars dt.year ++ '-' :: (pad2C dt.month ++ '-' :: (pad2C dt.day ++ ' ' ::
        (pad2C dt.hour ++ ':' :: (pad2C dt.minute ++ ':' :: pad2C dt.second)))) := by
  unfold formatTimestamp
  simp only [String.data_append, pad2S_data,
    show (natStr dt.year).data = natChars dt.year from rfl,
    show ("-" : String).data = ['-'] from rfl,
    show (":" : String).data = [':'] from rfl,
    show (" " : String).data = [' '] from rfl]
  simp [List.append_assoc]

theorem parseTimestamp_format (dt : DateTime) (h : validTime dt) :
    parseTimestamp (formatTimestamp dt) = some dt := by
  obtain ⟨h1, h2, h3, h4, h5, h6, h7, h8, h9⟩ := h
  have hy : readNumExact 4 ((formatTimestamp dt).data) =
      some (dt.year, '-' :: (pad2C dt.month ++ '-' :: (pad2C dt.day ++ ' ' ::
        (pad2C dt.hour ++ ':' :: (pad2C dt.minute ++ ':' :: pad2C dt.second))))) := by
    rw [formatTimestamp_data]
    have hr := readNumExact_exact (natChars dt.year)
      ('-' :: (pad2C dt.month ++ '-' :: (pad2C dt.day ++ ' ' ::
        (pad2C dt.hour ++ ':' :: (pad2C dt.minute ++ ':' :: pad2C dt.second)))))
      (natChars_digits _)
    rw [natChars_length_four dt.year h1 h2, natChars_val] at hr
    exact hr
  have hmo : readNum 2 (pad2C dt.month ++ '-' :: (pad2C dt.day ++ ' ' ::
      (pad2C dt.hour ++ ':' :: (pad2C dt.minute ++ ':' :: pad2C dt.second)))) =
      some (dt.month, '-' :: (pad2C dt.day ++ ' ' ::
        (pad2C dt.hour ++ ':' :: (pad2C dt.minute ++ ':' :: pad2C dt.second)))) :=
    readNum2_pad _ _ (by omega) (head_nondigit '-' _ (by decide))
  have hd : readNum 2 (pad2C dt.day ++ ' ' ::
      (pad2C dt.hour ++ ':' :: (pad2C dt.minute ++ ':' :: pad2C dt.second))) =
      some (dt.day, ' ' :: (pad2C dt.hour ++ ':' :: (pad2C dt.minute ++ ':' :: pad2C dt.second))) :=
    readNum2_pad _ _ (by omega) (head_nondigit ' ' _ (by decide))
  have hh : readNum 2 (pad2C dt.hour ++ ':' :: (pad2C dt.minute ++ ':' :: pad2C dt.second)) =
      some (dt.hour, ':' :: (pad2C dt.minute ++ ':' :: pad2C dt.second)) :=
    readNum2_pad _ _ (by omega) (head_nondigit ':' _ (by decide))
  have hmi : readNum 2 (pad2C dt.minute ++ ':' :: pad2C dt.second) =
      some (dt.minute, ':' :: pad2C dt.second) :=
    readNum2_pad _ _ (by omega) (head_nondigit ':' _ (by decide))
  have hs : readNum 2 (pad2C dt.second) = some (dt.second, []) := by
    have hr := readNum2_pad dt.second [] (by omega) head_nondigit_nil
    rw [List.append_nil] at hr
    exact hr
  unfold parseTimestamp
  rw [hy]
  simp only [Option.bind_eq_bind, Option.some_bind]
  rw [show expectChar '-' ('-' :: (pad2C dt.month ++ '-' :: (pad2C dt.day ++ ' ' ::
    (pad2C dt.hour ++ ':' :: (pad2C dt.minute ++ ':' :: pad2C dt.second))))) =
    some (pad2C dt.month ++ '-' :: (pad2C dt.day ++ ' ' ::
      (pad2C dt.hour ++ ':' :: (pad2C dt.minute ++ ':' :: pad2C dt.second)))) from rfl]
  simp only [Option.some_bind]
  rw [hmo]
  simp only [Option.some_bind]
  rw [show expectChar '-' ('-' :: (pad2C dt.day ++ ' ' ::
    (pad2C dt.hour ++ ':' :: (pad2C dt.minute ++ ':' :: pad2C dt.second)))) =
    some (pad2C dt.day ++ ' ' :: (pad2C dt.hour ++ ':' ::
      (pad2C dt.minute ++ ':' :: pad2C dt.second))) from rfl]
  simp only [Option.some_bind]
  rw [hd]
  simp only [Option.some_bind]
  rw [show expectChar ' ' (' ' :: (pad2C dt.hour ++ ':' ::
    (pad2C dt.minute ++ ':' :: pad2C dt.second))) =
    some (pad2C dt.hour ++ ':' :: (pad2C dt.minute ++ ':' :: pad2C dt.second)) from rfl]
  simp only [Option.some_bind]
  rw [hh]
  simp only [Option.some_bind]
  rw [show expectChar ':' (':' :: (pad2C dt.minute ++ ':' :: pad2C dt.second)) =
    some (pad2C dt.minute ++ ':' :: pad2C dt.second) from rfl]
  simp only [Option.some_bind]
  rw [hmi]
  simp only [Option.some_bind]
  rw [show expectChar ':' (':' :: pad2C dt.second) = some (pad2C dt.second) from rfl]
  simp only [Option.some_bind]
  rw [hs]
  simp only [Option.some_bind]
  have h0 : 1 ≤ dt.year := by omega
  simp [h0, h2, h3, h4, h5, h6, h7, h8, h9]

/-! ### Integer strings round-trip -/

theorem parseNatDigits_natChars (m : ℕ) : parseNatDigits (natChars m) = some m := by
  unfold parseNatDigits
  rw [if_neg (by simpa using natChars_ne_nil m)]
  rw [if_pos (by rw [List.all_eq_true]; exact natChars_digits m)]
  rw [natChars_val]

theorem isDigit_ne_dash (c : Char) (h : c.isDigit = true) : c ≠ '-' := by
  intro he
  subst he
  exact absurd h (by decide)

theorem parseIntStr_pyStr (n : ℤ) : parseIntStr (pyStr n) = some n := by
  by_cases hneg : n < 0
  · have hd : (pyStr n).data = '-' :: natChars (-n).toNat := by
      unfold pyStr
      rw [if_pos hneg]
    unfold parseIntStr
    rw [hd]
    simp [parseNatDigits_natChars]
    omega
  · have hd : (pyStr n).data = natChars n.toNat := by
      unfold pyStr
      rw [if_neg hneg]
    obtain ⟨c, cs, hc⟩ := List.exists_cons_of_ne_nil (natChars_ne_nil n.toNat)
    have hcd : c.isDigit = true := natChars_digits n.toNat c (by rw [hc]; exact List.mem_cons_self c cs)
    unfold parseIntStr
    rw [hd, hc]
    show (if c = '-' then (parseNatDigits cs).map (fun n : ℕ => -(n : ℤ))
      else (parseNatDigits (c :: cs)).map (fun n : ℕ => (n : ℤ))) = some n
    rw [if_neg (isDigit_ne_dash c hcd), ← hc, parseNatDigits_natChars]
    simp
    omega

/-! ### CSV fields round-trip -/

theorem needsQuote_false_mem (s : String) (h : needsQuote s = false) :
    ∀ c ∈ s.data, c ≠ ',' ∧ c ≠ '"' := by
  intro c hc
  unfold needsQuote at h
  rw [List.any_eq_false] at h
  have hcc := h c hc
  simp at hcc
  exact ⟨hcc.1.1.1, hcc.1.1.2⟩

theorem csvGo_nil (b : Bool) (acc : List Char) :
    csvGo [] b acc = [String.mk acc.reverse] := rfl

theorem csvGo_comma (cs acc : List Char) :
    csvGo (',' :: cs) false acc = String.mk acc.reverse :: csvGo cs false [] := rfl

theorem csvGo_false_quote_start (cs : List Char) : csvGo ('"' :: cs) false [] = csvGo cs true [] := by
  rw [csvGo.eq_def]
  split <;> try simp_all
  rename_i hc1 hc2 heq
  exact absurd heq.1.symm hc2

theorem csvGo_plain_end : ∀ cs acc : List Char, (∀ c ∈ cs, c ≠ ',' ∧ c ≠ '"') →
    csvGo cs false acc = [String.mk (acc.reverse ++ cs)] := by
  intro cs
  induction cs with
  | nil => intro acc _; simp [csvGo]
  | cons c cs' ih =>
      intro acc h
      have hc := h c (List.mem_cons_self c cs')
      rw [csvGo_false_other c cs' acc hc.1 hc.2,
        ih (c :: acc) (fun x hx => h x (List.mem_cons_of_mem c hx))]
      simp

theorem csvGo_plain_comma : ∀ cs rest acc : List Char, (∀ c ∈ cs, c ≠ ',' ∧ c ≠ '"') →
    csvGo (cs ++ ',' :: rest) false acc =
      String.mk (acc.reverse ++ cs) :: csvGo rest false [] := by
  intro cs
  induction cs with
  | nil =>
      intro rest acc _
      rw [List.nil_append, csvGo_comma]
      simp
  | cons c cs' ih =>
      intro rest acc h
      have hc := h c (List.mem_cons_self c cs')
      rw [List.cons_append, csvGo_false_other c _ acc hc.1 hc.2,
        ih rest (c :: acc) (fun x hx => h x (List.mem_cons_of_mem c hx))]
      simp

theorem csvGo_quoted : ∀ inner rest acc : List Char, rest.head? ≠ some '"' →
    csvGo (escQuotes inner ++ '"' :: rest) true acc = csvGo rest false (inner.reverse ++ acc) := by
  intro inner
  induction inner with
  | nil =>
      intro rest acc h
      rw [show escQuotes [] = [] from rfl, List.nil_append, csvGo_true_close rest acc h]
      simp
  | cons c cs ih =>
      intro rest acc h
      by_cases hq : c = '"'
      · subst hq
        rw [show escQuotes ('"' :: cs) = '"' :: '"' :: escQuotes cs from by rw [escQuotes]; simp,
          List.cons_append, List.cons_append,
          show csvGo ('"' :: '"' :: (escQuotes cs ++ '"' :: rest)) true acc =
            csvGo (escQuotes cs ++ '"' :: rest) true ('"' :: acc) from rfl,
          ih rest ('"' :: acc) h]
        simp
      · rw [show escQuotes (c :: cs) = c :: escQuotes cs from by rw [escQuotes]; simp [hq],
          List.cons_append, csvGo_true_other c _ acc hq, ih rest (c :: acc) h]
        simp

theorem csvGo_encode_last (f : String) : csvGo (encodeFieldChars f) false [] = [f] := by
  unfold encodeFieldChars
  split_ifs with hq
  · rw [csvGo_false_quote_start,
      show escQuotes f.data ++ ['"'] = escQuotes f.data ++ '"' :: [] from rfl,
      csvGo_quoted f.data [] [] (by simp), csvGo_nil]
    simp
  · rw [csvGo_plain_end f.data [] (needsQuote_false_mem f (by simpa using hq))]
    simp

theorem csvGo_encode_comma (f : String) (rest : List Char) :
    csvGo (encodeFieldChars f ++ ',' :: rest) false [] = f :: csvGo rest false [] := by
  unfold encodeFieldChars
  split_ifs with hq
  · rw [List.cons_append, csvGo_false_quote_start, List.append_assoc, List.singleton_append,
      csvGo_quoted f.data (',' :: rest) [] (by simp), csvGo_comma]
    simp
  · rw [csvGo_plain_comma f.data rest [] (needsQuote_false_mem f (by simpa using hq))]
    simp

theorem parseFields_rowBody : ∀ fs : List String, fs ≠ [] → parseFields (rowBody fs) = fs := by
  intro fs
  induction fs with
  | nil => intro h; exact absurd rfl h
  | cons f fs' ih =>
      intro _
      cases fs' with
      | nil => exact csvGo_encode_last f
      | cons g fs'' =>
          show csvGo (encodeFieldChars f ++ ',' :: rowBody (g :: fs'')) false [] = f :: g :: fs''
          have hih := ih (by simp)
          unfold parseFields at hih
          rw [csvGo_encode_comma, hih]

/-! ### File-level round-trip -/

theorem escQuotes_mem : ∀ (l : List Char) (c : Char), c ∈ escQuotes l → c ∈ l ∨ c = '"' := by
  intro l
  induction l with
  | nil =>
      intro c hc
      rw [show escQuotes [] = [] from rfl] at hc
      exact absurd hc (List.not_mem_nil c)
  | cons d ds ih =>
      intro c hc
      rw [escQuotes] at hc
      by_cases hd : d = '"'
      · rw [if_pos hd] at hc
        rcases List.mem_cons.mp hc with rfl | hc
        · right; rfl
        · rcases List.mem_cons.mp hc with rfl | hc
          · right; rfl
          · rcases ih c hc with h | h
            · left; exact List.mem_cons_of_mem d h
            · right; exact h
      · rw [if_neg hd] at hc
        rcases List.mem_cons.mp hc with rfl | hc
        · left; exact List.mem_cons_self _ _
        · rcases ih c hc with h | h
          · left; exact List.mem_cons_of_mem d h
          · right; exact h

theorem encodeFieldChars_mem (s : String) (c : Char) (hc : c ∈ encodeFieldChars s) :
    c ∈ s.data ∨ c = '"' := by
  unfold encodeFieldChars at hc
  split_ifs at hc with hq
  · rcases List.mem_cons.mp hc with rfl | hc
    · right; rfl
    · rcases List.mem_append.mp hc with hc | hc
      · exact escQuotes_mem s.data c hc
      · right; exact List.mem_singleton.mp hc
  · left; exact hc

theorem rowBody_mem : ∀ (fs : List String) (c : Char), c ∈ rowBody fs →
    (∃ f ∈ fs, c ∈ f.data) ∨ c = '"' ∨ c = ',' := by
  intro fs
  induction fs with
  | nil =>
      intro c hc
      rw [show rowBody [] = [] from rfl] at hc
      exact absurd hc (List.not_mem_nil c)
  | cons f fs' ih =>
      intro c hc
      cases fs' with
      | nil =>
          rw [show rowBody [f] = encodeFieldChars f from rfl] at hc
          rcases encodeFieldChars_mem f c hc with h | h
          · exact Or.inl ⟨f, List.mem_cons_self f _, h⟩
          · exact Or.inr (Or.inl h)
      | cons g fs'' =>
          rw [show rowBody (f :: g :: fs'') =
            encodeFieldChars f ++ ',' :: rowBody (g :: fs'') from rfl] at hc
          rcases List.mem_append.mp hc with hc | hc
          · rcases encodeFieldChars_mem f c hc with h | h
            · exact Or.inl ⟨f, List.mem_cons_self f _, h⟩
            · exact Or.inr (Or.inl h)
          · rcases List.mem_cons.mp hc with rfl | hc
            · exact Or.inr (Or.inr rfl)
            · rcases ih c hc with ⟨f', hf', hcf'⟩ | h
              · exact Or.inl ⟨f', List.mem_cons_of_mem f hf', hcf'⟩
              · exact Or.inr h

theorem rowBody_no_crlf (fs : List String) (h : ∀ f ∈ fs, crlfFree f) :
    ∀ c ∈ rowBody fs, c ≠ '\n' ∧ c ≠ '\r' := by
  intro c hc
  rcases rowBody_mem fs c hc with ⟨f, hf, hcf⟩ | h2 | h2
  · exact ⟨fun he => (h f hf).1 (he ▸ hcf), fun he => (h f hf).2 (he ▸ hcf)⟩
  · subst h2; exact ⟨by decide, by decide⟩
  · subst h2; exact ⟨by decide, by decide⟩

theorem univNewlines_append_noCR : ∀ xs ys : List Char, (∀ c ∈ xs, c ≠ '\r') →
    univNewlines (xs ++ ys) = xs ++ univNewlines ys := by
  intro xs
  induction xs with
  | nil => intro ys _; rfl
  | cons c xs' ih =>
      intro ys h
      rw [List.cons_append, univNewlines_cons_ne c _ (h c (List.mem_cons_self c xs')),
        ih ys (fun x hx => h x (List.mem_cons_of_mem c hx)), List.cons_append]

theorem univNewlines_row (fs : List String) (rest : List Char) (h : ∀ f ∈ fs, crlfFree f) :
    univNewlines (encodeRow fs ++ rest) = rowBody fs ++ '\n' :: univNewlines rest := by
  unfold encodeRow
  rw [List.append_assoc,
    univNewlines_append_noCR (rowBody fs) _ (fun c hc => (rowBody_no_crlf fs h c hc).2)]
  rfl

theorem splitGo_append : ∀ xs : List Char, '\n' ∉ xs → ∀ rest acc : List Char,
    splitGo (xs ++ '\n' :: rest) acc = (acc.reverse ++ xs) :: splitGo rest [] := by
  intro xs
  induction xs with
  | nil =>
      intro _ rest acc
      rw [List.nil_append,
        show splitGo ('\n' :: rest) acc = acc.reverse :: splitGo rest [] from rfl]
      simp
  | cons c xs' ih =>
      intro h rest acc
      have hc : c ≠ '\n' := fun he => h (he ▸ List.mem_cons_self c xs')
      rw [List.cons_append, splitGo_cons_ne c _ acc hc,
        ih (fun hm => h (List.mem_cons_of_mem c hm)) rest (c :: acc)]
      simp

theorem file_lines : ∀ rows : List (List String), (∀ fs ∈ rows, ∀ f ∈ fs, crlfFree f) →
    splitLines (univNewlines ((rows.map encodeRow).flatten)) = rows.map rowBody := by
  intro rows
  induction rows with
  | nil => intro _; rfl
  | cons fs rows' ih =>
      intro h
      rw [List.map_cons, List.flatten_cons,
        univNewlines_row fs _ (h fs (List.mem_cons_self fs rows'))]
      unfold splitLines
      rw [splitGo_append (rowBody fs)
        (fun hm => (rowBody_no_crlf fs (h fs (List.mem_cons_self fs rows')) '\n' hm).1 rfl)
        _ []]
      rw [List.map_cons]
      have hih := ih (fun fs' hf => h fs' (List.mem_cons_of_mem fs hf))
      unfold splitLines at hih
      rw [hih]
      simp

theorem crlfFree_formatTimestamp (dt : DateTime) : crlfFree (formatTimestamp dt) := by
  have hmem : ∀ c ∈ (formatTimestamp dt).data,
      c.isDigit = true ∨ c = '-' ∨ c = ' ' ∨ c = ':' := by
    intro c hc
    rw [formatTimestamp_data] at hc
    rcases List.mem_append.mp hc with hc | hc
    · exact Or.inl (natChars_digits _ c hc)
    · rcases List.mem_cons.mp hc with rfl | hc
      · exact Or.inr (Or.inl rfl)
      · rcases List.mem_append.mp hc with hc | hc
        · exact Or.inl (pad2C_digits _ c hc)
        · rcases List.mem_cons.mp hc with rfl | hc
          · exact Or.inr (Or.inl rfl)
          · rcases List.mem_append.mp hc with hc | hc
            · exact Or.inl (pad2C_digits _ c hc)
            · rcases List.mem_cons.mp hc with rfl | hc
              · exact Or.inr (Or.inr (Or.inl rfl))
              · rcases List.mem_append.mp hc with hc | hc
                · exact Or.inl (pad2C_digits _ c hc)
                · rcases List.mem_cons.mp hc with rfl | hc
                  · exact Or.inr (Or.inr (Or.inr rfl))
                  · rcases List.mem_append.mp hc with hc | hc
                    · exact Or.inl (pad2C_digits _ c hc)
                    · rcases List.mem_cons.mp hc with rfl | hc
                      · exact Or.inr (Or.inr (Or.inr rfl))
                      · exact Or.inl (pad2C_digits _ c hc)
  constructor
  · intro hm
    rcases hmem '\n' hm with h | h | h | h <;> exact absurd h (by decide)
  · intro hm
    rcases hmem '\r' hm with h | h | h | h <;> exact absurd h (by decide)

theorem crlfFree_pyStr (n : ℤ) : crlfFree (pyStr n) := by
  have hmem : ∀ c ∈ (pyStr n).data, c.isDigit = true ∨ c = '-' := by
    intro c hc
    unfold pyStr at hc
    split_ifs at hc with h
    · rcases List.mem_cons.mp hc with rfl | hc
      · exact Or.inr rfl
      · exact Or.inl (natChars_digits _ c hc)
    · exact Or.inl (natChars_digits _ c hc)
  constructor
  · intro hm
    rcases hmem '\n' hm with h | h <;> exact absurd h (by decide)
  · intro hm
    rcases hmem '\r' hm with h | h <;> exact absurd h (by decide)

theorem to_csv_row_crlfFree (c : Commit) (h : validCommit c) :
    ∀ f ∈ to_csv_row c, crlfFree f := by
  obtain ⟨hr, hs, ha, _⟩ := h
  intro f hf
  unfold to_csv_row at hf
  simp only [List.mem_cons, List.not_mem_nil, or_false] at hf
  rcases hf with rfl | rfl | rfl | rfl | rfl | rfl
  · exact hr
  · exact hs
  · exact crlfFree_formatTimestamp c.timestamp
  · exact ha
  · exact crlfFree_pyStr c.added
  · exact crlfFree_pyStr c.removed

theorem parseCommitRow_to_csv_row (c : Commit) (h : validCommit c) :
    parseCommitRow (to_csv_row c) = some c := by
  obtain ⟨_, _, _, ht⟩ := h
  unfold parseCommitRow to_csv_row
  show (match parseTimestamp (formatTimestamp c.timestamp), parseIntStr (pyStr c.added),
      parseIntStr (pyStr c.removed) with
    | some t, some a, some r => some (Commit.mk c.repository c.sha t c.author a r)
    | _, _, _ => none) = some c
  rw [parseTimestamp_format c.timestamp ht, parseIntStr_pyStr, parseIntStr_pyStr]

theorem mapM_rows (commits : List Commit) (h : ∀ c ∈ commits, validCommit c) :
    ((commits.map to_csv_row).map rowBody).mapM (fun line => parseCommitRow (parseFields line)) =
      some commits := by
  induction commits with
  | nil => rfl
  | cons c cs ih =>
      rw [List.map_cons, List.map_cons, List.mapM_cons]
      have hp : parseFields (rowBody (to_csv_row c)) = to_csv_row c :=
        parseFields_rowBody (to_csv_row c) (by unfold to_csv_row; simp)
      rw [hp, parseCommitRow_to_csv_row c (h c (List.mem_cons_self c cs)),
        ih (fun x hx => h x (List.mem_cons_of_mem c hx))]
      rfl

/-- C7: writing any list of commits with save_commits and reading the text
back with from_csv_file returns exactly the same records in all fields,
provided each record's string fields are CR/LF-free and its timestamp is a
valid second-precision datetime (the ranges strftime writes and strptime
accepts). -/
theorem csv_round_trip (commits : List Commit) (h : ∀ c ∈ commits, validCommit c) :
    from_csv_file (save_commits commits) = some commits := by
  have hval : ∀ fs ∈ csvHeader :: commits.map to_csv_row, ∀ f ∈ fs, crlfFree f := by
    intro fs hfs
    rcases List.mem_cons.mp hfs with rfl | hfs
    · intro f hf
      unfold csvHeader at hf
      simp only [List.mem_cons, List.not_mem_nil, or_false] at hf
      rcases hf with rfl | rfl | rfl | rfl | rfl | rfl <;> exact ⟨by decide, by decide⟩
    · rcases List.mem_map.mp hfs with ⟨c, hc, rfl⟩
      exact to_csv_row_crlfFree c (h c hc)
  unfold from_csv_file save_commits
  rw [show (String.mk (encodeRow csvHeader ++
      (commits.map (fun c => encodeRow (to_csv_row c))).flatten)).data =
      encodeRow csvHeader ++ (commits.map (fun c => encodeRow (to_csv_row c))).flatten from rfl]
  have hfile : encodeRow csvHeader ++ (commits.map (fun c => encodeRow (to_csv_row c))).flatten =
      ((csvHeader :: commits.map to_csv_row).map encodeRow).flatten := by
    rw [List.map_cons, List.flatten_cons, List.map_map]
    rfl
  rw [hfile, file_lines (csvHeader :: commits.map to_csv_row) hval, List.map_cons]
  exact mapM_rows commits h

instance (s : String) : Decidable (crlfFree s) := by
  unfold crlfFree
  infer_instance

instance (t : DateTime) : Decidable (validTime t) := by
  unfold validTime
  infer_instance

instance (c : Commit) : Decidable (validCommit c) := by
  unfold validCommit
  infer_instance

/-- A commit whose author contains a comma and quotes (exercising the CSV
quoting path) and whose removed count is the -1 sentinel. -/
def demoCommit : Commit :=
  ⟨"repo", "abc123", ⟨2024, 1, 3, 12, 30, 45⟩, "Dan, M \x22the man\x22", 10, -1⟩

/-- C7 witness: the round trip applied to the demo commit, discharging
the validity hypothesis by computation. -/
theorem csv_round_trip_witness :
    (∀ c ∈ [demoCommit], validCommit c) ∧
    from_csv_file (save_commits [demoCommit]) = some [demoCommit] :=
  ⟨by decide, csv_round_trip [demoCommit] (by decide)⟩

end GitStats
